import Mathlib

/-!
# i18n4go: the `extract_strings` command

A shallow embedding of `cmds/extract_strings/extract_strings.go` and proofs about it.

Conventions of the embedding.

* A Go `string` is a Lean `String`; byte offsets of the source become character offsets, which
  agree on the operations used here (`HasPrefix`, `HasSuffix`, `Split`, `LastIndex`, slicing at
  an index returned by `LastIndex`).
* A Go `map[string]V` is an association list with pairwise distinct keys (`GoMap`).  The order of
  the list carries no meaning: a `range` over a map goes through `Env.rangeOrder`, which stands
  for the unspecified iteration order of the Go runtime.
* A pointer that may be nil is an `Option`; calling a method on a nil `*regexp.Regexp` or a nil
  `os.FileInfo` is a run-time panic, recorded as `Outcome.panicked`.
* Everything the command obtains from outside `extract_strings.go` (the `common` and `cmds`
  packages of the repository, the Go standard library, the file system) is a field of `Env`.
* The receiver `es *ExtractStrings` is passed and returned explicitly; the calls the command
  makes to the outside world are appended to a trace of `Event`s, and so is every call of
  `InspectFile`.  Output on stdout is left out.
* `strconv.Unquote`, the regular expressions and the file system are parameters of every general
  statement.  Closed examples run in a small `World`, whose `strconv.Unquote` follows the Go
  library on literals of ASCII characters and escapes.
-/

namespace i18n4go

/-! ## Strings -/

/-- Go `strings.HasPrefix`. -/
def HasPrefix (s pre : String) : Bool := pre.data.isPrefixOf s.data

/-- Go `strings.HasSuffix`. -/
def HasSuffix (s suf : String) : Bool := suf.data.isSuffixOf s.data

/-- The pieces of `strings.Split(s, sep)` for a non-empty `sep`: `cur` holds the piece being
read (reversed) and `skip` counts the characters of a separator just matched that are still to
be dropped. -/
def Split.go (sep : List Char) : Nat → List Char → List Char → List (List Char)
  | _, [], cur => [cur.reverse]
  | skip + 1, _ :: cs, cur => Split.go sep skip cs cur
  | 0, c :: cs, cur =>
    if sep.isPrefixOf (c :: cs) then cur.reverse :: Split.go sep (sep.length - 1) cs []
    else Split.go sep 0 cs (c :: cur)

/-- Go `strings.Split`: with an empty separator the string is exploded into its characters. -/
def Split (s sep : String) : List String :=
  if sep.data = [] then s.data.map fun c => String.mk [c]
  else (Split.go sep.data 0 s.data []).map String.mk

/-- Indices `i ≤ n` at which `sub` starts in `s`, scanned from `n` downwards. -/
def LastIndex.go (s sub : List Char) : Nat → Int
  | 0 => if sub.isPrefixOf s then 0 else -1
  | n + 1 => if sub.isPrefixOf (s.drop (n + 1)) then ((n + 1 : Nat) : Int) else LastIndex.go s sub n

/-- Go `strings.LastIndex`: the index of the last occurrence of `sub` in `s`, or `-1`. -/
def LastIndex (s sub : String) : Int := LastIndex.go s.data sub.data s.data.length

/-- Go slice `s[i:len(s)]` for `0 ≤ i ≤ len(s)`. -/
def sliceFrom (s : String) (i : Int) : String := String.mk (s.data.drop i.toNat)

/-! ## Data model -/

/-- Go `error` values. -/
structure Error where
  msg : String
deriving DecidableEq, Repr

deriving instance DecidableEq for Except

/-- Modelled from the spec: the record `common.StringInfo` (package `common` is not part of the
sources at hand), with the fields of the extraction artifact, which `extractString` fills in. -/
structure StringInfo where
  Value : String
  Filename : String
  Offset : Int
  Line : Int
  Column : Int
deriving DecidableEq, Repr

set_option linter.dupNamespace false in
/-- Modelled from the spec: the record `common.ExcludedStrings` (package `common` is not part of
the sources at hand), the shape of the exclusion config file. -/
structure ExcludedStrings where
  ExcludedStrings : List String
  ExcludedRegexps : List String
deriving DecidableEq, Repr

/-- Modelled from the spec: the record `cmds.Options` (package `cmds` is not part of the sources
at hand), the configuration surface, with the fields the command reads. -/
structure Options where
  VerboseFlag : Bool
  DryRunFlag : Bool
  PoFlag : Bool
  OutputDirFlag : String
  OutputMatchImportFlag : Bool
  OutputMatchPackageFlag : Bool
  ExcludedFilenameFlag : String
  IgnoreRegexp : String
deriving DecidableEq, Repr

/-- A compiled `regexp.Regexp`, identified by the expression it was compiled from. -/
structure Regexp where
  expr : String
deriving DecidableEq, Repr

/-- Go `token.Token`, restricted to the kinds a basic literal can have. -/
inductive Token where
  | INT
  | FLOAT
  | IMAG
  | CHAR
  | STRING
deriving DecidableEq, Repr

/-- Go `token.Position`. -/
structure Position where
  Filename : String
  Offset : Int
  Line : Int
  Column : Int
deriving DecidableEq, Repr

/-- Go `token.FileSet`, as the position resolver it provides. -/
structure FileSet where
  Position : Nat → Position

/-- Go `ast.BasicLit`: `Value` is the raw token text, quotes and escapes included. -/
structure BasicLit where
  ValuePos : Nat
  Kind : Token
  Value : String
deriving DecidableEq, Repr

/-- Go `ast.Node`: a basic literal, or any other node with its non-nil children in the order
`ast.Walk` visits them. -/
inductive Node where
  | BasicLit (x : BasicLit)
  | other (children : List Node)

/-- Go `ast.ImportSpec`. -/
structure ImportSpec where
  Path : BasicLit
deriving DecidableEq, Repr

/-- Go `ast.File`: `root` is the file node with everything `ast.Walk` reaches below it, and
`Imports` the import specs of the file. -/
structure File where
  root : Node
  Imports : List ImportSpec

/-- Go `os.FileInfo`. -/
structure FileInfo where
  Name : String
  IsDir : Bool
deriving DecidableEq, Repr

/-- Go `ast.Package`, as the file names of `pkg.Files` in the order the `range` yields them. -/
structure Package where
  Files : List String
deriving DecidableEq, Repr

/-- Go `build.Package`. -/
structure BuildPackage where
  Dir : String
  Name : String
deriving DecidableEq, Repr

/-- A Go `map[string]V`. -/
abbrev GoMap (V : Type) := List (String × V)

/-- Go `m[k] = v`. -/
def GoMap.set {V : Type} : GoMap V → String → V → GoMap V
  | [], k, v => [(k, v)]
  | (k', v') :: m, k, v => if k' = k then (k, v) :: m else (k', v') :: GoMap.set m k v

/-- Go `v, ok := m[k]`. -/
def GoMap.get? {V : Type} : GoMap V → String → Option V
  | [], _ => none
  | (k', v') :: m, k => if k' = k then some v' else GoMap.get? m k

/-- The keys of a map. -/
def GoMap.keys {V : Type} (m : GoMap V) : List String := m.map Prod.fst

/-- Go `m[k]` on a `map[string]string`: the zero value `""` for a missing key. -/
def GoMap.index (m : GoMap String) (k : String) : String := (m.get? k).getD ""

/-- The directory tree below a directory, as `InspectDir` sees it: what `parser.ParseDir`
reports for the directory (the packages in `range` order, and the error if any) and what
`ioutil.ReadDir` lists, each entry with the tree below it. -/
inductive DirTree where
  | mk (packages : List (String × Package)) (parseErr : Option Error)
      (entries : List (FileInfo × DirTree))

/-- The calls recorded in the trace: a call of `InspectFile`, and the calls that reach the file
system (`common.CreateOutputDirsIfNeeded`, `os.Create`, `file.Write`, `common.SaveStrings`,
`common.SaveStringsInPo`), each with its arguments. -/
inductive Event where
  | InspectFile (filename : String)
  | CreateOutputDirsIfNeeded (outputDirname : String)
  | Create (path : String)
  | Write (path : String) (data : String)
  | SaveStrings (strings : GoMap StringInfo) (outputDirname : String) (filename : String)
  | SaveStringsInPo (strings : GoMap StringInfo) (outputDirname : String) (filename : String)
deriving DecidableEq, Repr

/-- Everything the command obtains from outside `extract_strings.go`. -/
structure Env where
  /-- Variable `common.BLANKS`, the reserved blank forms. -/
  BLANKS : List String
  /-- Function `common.GetAbsFileInfo`; the file info is `none` when it is nil. -/
  GetAbsFileInfo : String → Option FileInfo × Option Error
  /-- Function `common.FindFilePath`, the directory containing a file. -/
  FindFilePath : String → Except Error String
  /-- Function `common.SaveStrings`. -/
  SaveStrings : GoMap StringInfo → String → String → Option Error
  /-- Function `common.SaveStringsInPo`. -/
  SaveStringsInPo : GoMap StringInfo → String → String → Option Error
  /-- Function `strconv.Unquote`. -/
  Unquote : String → Except Error String
  /-- Function `regexp.Compile`. -/
  Compile : String → Except Error Regexp
  /-- Method `(*regexp.Regexp).MatchString` on a non-nil receiver. -/
  MatchString : Regexp → String → Bool
  /-- Function `filepath.IsAbs`. -/
  IsAbs : String → Bool
  /-- Function `filepath.Join`. -/
  Join : List String → String
  /-- Constant `os.PathSeparator`. -/
  PathSeparator : Char
  /-- Function `os.Getenv`. -/
  Getenv : String → String
  /-- Whether `os.Stat` fails with an error for which `os.IsNotExist` holds. -/
  StatIsNotExist : String → Bool
  /-- Function `ioutil.ReadFile`. -/
  ReadFile : String → Except Error String
  /-- Function `os.Create`, as the error it returns. -/
  Create : String → Option Error
  /-- Function `json.Unmarshal` into a `common.ExcludedStrings`. -/
  Unmarshal : String → Except Error ExcludedStrings
  /-- Function `json.MarshalIndent` with prefix `""` and a three-space indent. -/
  MarshalIndent : List StringInfo → Except Error String
  /-- Function `parser.ParseFile`, with the file set it fills in. -/
  ParseFile : String → Except Error (File × FileSet)
  /-- Function `build.ImportDir`: the package is returned alongside the error. -/
  ImportDir : String → BuildPackage × Option Error
  /-- The order in which a `range` over `ExtractedStrings` yields the entries of the map. -/
  rangeOrder : GoMap StringInfo → GoMap StringInfo

/-- The iteration order of `env` yields every entry of a map exactly once. -/
def Env.RangeFaithful (env : Env) : Prop := ∀ m, (env.rangeOrder m).Perm m

/-- The struct `ExtractStrings`. -/
structure ExtractStrings where
  options : Options
  i18nFilename : String
  poFilename : String
  Filename : String
  OutputDirname : String
  ExtractedStrings : GoMap StringInfo
  FilteredStrings : GoMap String
  FilteredRegexps : List (Option Regexp)
  TotalStringsDir : Int
  TotalStrings : Int
  TotalFiles : Int
  IgnoreRegexp : Option Regexp
deriving DecidableEq, Repr

/-- How a call ends: it returns its `error` result (`none` is nil), or it panics. -/
inductive Outcome where
  | returned (err : Option Error)
  | panicked
deriving DecidableEq, Repr

/-- The receiver together with the trace of what has been done so far. -/
structure Run where
  es : ExtractStrings
  trace : List Event
deriving DecidableEq, Repr

/-! ## The command -/

/-- Go `NewExtractStrings`. -/
def NewExtractStrings (env : Env) (options : Options) : ExtractStrings :=
  let compiledRegexp : Option Regexp :=
    if options.IgnoreRegexp ≠ "" then (env.Compile options.IgnoreRegexp).toOption else none
  { options := options
    i18nFilename := ""
    poFilename := ""
    Filename := "extracted_strings.json"
    OutputDirname := options.OutputDirFlag
    ExtractedStrings := []
    FilteredStrings := []
    FilteredRegexps := []
    TotalStringsDir := 0
    TotalStrings := 0
    TotalFiles := 0
    IgnoreRegexp := compiledRegexp }

/-- Go `setFilename`. -/
def setFilename (es : ExtractStrings) (filename : String) : ExtractStrings :=
  { es with Filename := filename ++ ".extracted.json" }

/-- Go `setI18nFilename`. -/
def setI18nFilename (es : ExtractStrings) (filename : String) : ExtractStrings :=
  { es with i18nFilename := filename ++ ".en.json" }

/-- Go `setPoFilename`. -/
def setPoFilename (es : ExtractStrings) (filename : String) : ExtractStrings :=
  { es with poFilename := filename ++ ".en.po" }

/-- The loop of `loadExcludedStrings` over the config's `excludedStrings`. -/
def loadExcludedStrings.loop : List String → GoMap String → GoMap String
  | [], m => m
  | s :: rest, m => loadExcludedStrings.loop rest (m.set s s)

/-- Go `loadExcludedStrings` (lines 322-349). -/
def loadExcludedStrings (env : Env) (es : ExtractStrings) : Option Error × ExtractStrings :=
  if env.StatIsNotExist es.options.ExcludedFilenameFlag then (none, es)
  else
    match env.ReadFile es.options.ExcludedFilenameFlag with
    | .error err => (some err, es)
    | .ok content =>
      match env.Unmarshal content with
      | .error err => (some err, es)
      | .ok excludedStrings =>
        (none, { es with FilteredStrings :=
          loadExcludedStrings.loop excludedStrings.ExcludedStrings es.FilteredStrings })

/-- The loop of `loadExcludedRegexps` over the config's `excludedRegexps`: the result of
`regexp.Compile` is appended whether or not compiling failed, and it is nil when it did. -/
def loadExcludedRegexps.loop (env : Env) : List String → List (Option Regexp) →
    List (Option Regexp)
  | [], rs => rs
  | regexpString :: rest, rs =>
    loadExcludedRegexps.loop env rest (rs ++ [(env.Compile regexpString).toOption])

/-- Go `loadExcludedRegexps` (lines 351-383). -/
def loadExcludedRegexps (env : Env) (es : ExtractStrings) : Option Error × ExtractStrings :=
  if env.StatIsNotExist es.options.ExcludedFilenameFlag then (none, es)
  else
    match env.ReadFile es.options.ExcludedFilenameFlag with
    | .error err => (some err, es)
    | .ok content =>
      match env.Unmarshal content with
      | .error err => (some err, es)
      | .ok excludedRegexps =>
        (none, { es with FilteredRegexps :=
          loadExcludedRegexps.loop env excludedRegexps.ExcludedRegexps es.FilteredRegexps })

/-- Go `s, _ := strconv.Unquote(v)`: the empty string when unquoting fails. -/
def unquoted (env : Env) (v : String) : String :=
  match env.Unquote v with
  | .ok s => s
  | .error _ => ""

/-- The loop of `excludeImports` over `astFile.Imports`. -/
def excludeImports.loop (env : Env) : List ImportSpec → GoMap String → GoMap String
  | [], m => m
  | spec :: rest, m =>
    let importString := unquoted env spec.Path.Value
    excludeImports.loop env rest (m.set importString importString)

/-- Go `excludeImports` (lines 407-413). -/
def excludeImports (env : Env) (es : ExtractStrings) (astFile : File) : ExtractStrings :=
  { es with FilteredStrings := excludeImports.loop env astFile.Imports es.FilteredStrings }

/-- The loop of `filter` over `FilteredRegexps`; `none` is the panic of `MatchString` on a nil
receiver. -/
def filter.regexps (env : Env) : List (Option Regexp) → String → Option Bool
  | [], _ => some false
  | none :: _, _ => none
  | some compiledRegexp :: rest, aString =>
    if env.MatchString compiledRegexp aString then some true
    else filter.regexps env rest aString

/-- Go `filter` (lines 415-433); `none` when the call panics. -/
def filter (env : Env) (es : ExtractStrings) (aString : String) : Option Bool :=
  if env.BLANKS.contains aString then some true
  else if es.FilteredStrings.index aString ≠ "" then some true
  else filter.regexps env es.FilteredRegexps aString

mutual
/-- The nodes `ast.Inspect` passes to a callback that always returns true, in order. -/
def Node.preorder : Node → List Node
  | .BasicLit x => [.BasicLit x]
  | .other children => .other children :: Node.preorderList children
/-- The nodes visited below a list of children. -/
def Node.preorderList : List Node → List Node
  | [] => []
  | c :: cs => c.preorder ++ Node.preorderList cs
end

/-- The whitespace test of `extractString` on the unquoted value `s`. -/
def extractString.notWhitespace (s : String) : Bool := s != "\t" && s != "\n" && s != " "

/-- The callback `extractString` gives to `ast.Inspect`, at one node; `none` when it panics. -/
def extractString.visit (env : Env) (fset : FileSet) (es : ExtractStrings) :
    Node → Option ExtractStrings
  | .BasicLit x =>
    let s := unquoted env x.Value
    if s.length > 0 && x.Kind == Token.STRING && extractString.notWhitespace s then
      match filter env es s with
      | none => none
      | some true => some es
      | some false =>
        let position := fset.Position x.ValuePos
        let stringInfo : StringInfo :=
          { Value := s
            Filename := position.Filename
            Offset := position.Offset
            Line := position.Line
            Column := position.Column }
        some { es with ExtractedStrings := es.ExtractedStrings.set s stringInfo }
    else some es
  | .other _ => some es

/-- The walk of `ast.Inspect` over the nodes still to visit. -/
def extractString.walk (env : Env) (fset : FileSet) : List Node → ExtractStrings →
    Outcome × ExtractStrings
  | [], es => (.returned none, es)
  | n :: rest, es =>
    match extractString.visit env fset es n with
    | none => (.panicked, es)
    | some es' => extractString.walk env fset rest es'

/-- Go `extractString` (lines 385-405). -/
def extractString (env : Env) (es : ExtractStrings) (f : File) (fset : FileSet) :
    Outcome × ExtractStrings :=
  extractString.walk env fset f.root.preorder es

/-- Go `findImportPath` (lines 240-256): the error of `build.ImportDir` is assigned and never
looked at. -/
def findImportPath (env : Env) (es : ExtractStrings) (filename : String) :
    String × Option Error :=
  let path := es.OutputDirname
  match env.FindFilePath filename with
  | .error err => ("", some err)
  | .ok filePath =>
    let pkg := (env.ImportDir filePath).1
    let srcPath := "src" ++ String.singleton env.PathSeparator
    if HasPrefix pkg.Dir srcPath then
      (env.Join [path, sliceFrom pkg.Dir (srcPath.length : Nat)], none)
    else (path, none)

/-- Go `findPackagePath` (lines 258-274). -/
def findPackagePath (env : Env) (es : ExtractStrings) (filename : String) :
    String × Option Error :=
  let path := es.OutputDirname
  match env.FindFilePath filename with
  | .error err => ("", some err)
  | .ok filePath =>
    match env.ImportDir filePath with
    | (_, some err) => ("", some err)
    | (pkg, none) => (env.Join [path, pkg.Name], none)

/-- The records `saveExtractedStrings` collects from `ExtractedStrings`, in the order of the
`range`, each with its `Filename` overwritten. -/
def saveExtractedStrings.stringInfos (env : Env) (es : ExtractStrings) : List StringInfo :=
  (env.rangeOrder es.ExtractedStrings).map fun entry =>
    { entry.2 with Filename := (Split es.Filename ".extracted.json").headD "" }

/-- Go `saveExtractedStrings` (lines 276-308). -/
def saveExtractedStrings (env : Env) (outputDirname : String) (r : Run) : Option Error × Run :=
  let es := r.es
  let r := { r with trace := r.trace ++ [Event.CreateOutputDirsIfNeeded outputDirname] }
  let stringInfos := saveExtractedStrings.stringInfos env es
  match env.MarshalIndent stringInfos with
  | .error err => (some err, r)
  | .ok jsonData =>
    if !es.options.DryRunFlag && stringInfos.length != 0 then
      let path := env.Join [outputDirname,
        sliceFrom es.Filename (LastIndex es.Filename (String.singleton env.PathSeparator) + 1)]
      let r := { r with trace := r.trace ++ [Event.Create path] }
      match env.Create path with
      | some err => (some err, r)
      | none => (none, { r with trace := r.trace ++ [Event.Write path jsonData] })
    else (none, r)

/-- The Output Locator of `InspectFile` (lines 146-167): the directory handed to
`saveExtractedStrings`, or the error `InspectFile` returns instead. -/
def InspectFile.outputDirname (env : Env) (es : ExtractStrings) (absFilePath : String) :
    String × Option Error :=
  if es.options.OutputDirFlag ≠ "" then
    if es.options.OutputMatchImportFlag then findImportPath env es absFilePath
    else if es.options.OutputMatchPackageFlag then findPackagePath env es absFilePath
    else (es.OutputDirname, none)
  else
    match env.FindFilePath absFilePath with
    | .error err => (es.OutputDirname, some err)
    | .ok dir => (dir, none)

/-- The tail of `InspectFile`, from `saveExtractedStrings` on (lines 169-189). -/
def InspectFile.save (env : Env) (outputDirname : String) (r : Run) : Outcome × Run :=
  match saveExtractedStrings env outputDirname r with
  | (some err, r) => (.returned (some err), r)
  | (none, r) =>
    let r := { r with trace := r.trace ++
      [Event.SaveStrings r.es.ExtractedStrings outputDirname r.es.i18nFilename] }
    match env.SaveStrings r.es.ExtractedStrings outputDirname r.es.i18nFilename with
    | some err => (.returned (some err), r)
    | none =>
      if r.es.options.PoFlag then
        let r := { r with trace := r.trace ++
          [Event.SaveStringsInPo r.es.ExtractedStrings outputDirname r.es.poFilename] }
        match env.SaveStringsInPo r.es.ExtractedStrings outputDirname r.es.poFilename with
        | some err => (.returned (some err), r)
        | none => (.returned none, r)
      else (.returned none, r)

/-- Go `absFilePath` of `InspectFile`. -/
def InspectFile.absFilePath (env : Env) (filename : String) : String :=
  if !env.IsAbs filename then env.Join [env.Getenv "PWD", filename] else filename

/-- The start of `InspectFile` (lines 92-98): the maps are made afresh and the file names are
set. -/
def InspectFile.reset (es : ExtractStrings) (filename : String) : ExtractStrings :=
  let es := { es with ExtractedStrings := [], FilteredStrings := [], FilteredRegexps := [] }
  setPoFilename (setI18nFilename (setFilename es filename) filename) filename

/-- The counters of `InspectFile` after `extractString` (lines 140-142). -/
def InspectFile.count (es : ExtractStrings) : ExtractStrings :=
  { es with
    TotalStringsDir := es.TotalStringsDir + es.ExtractedStrings.length
    TotalStrings := es.TotalStrings + es.ExtractedStrings.length
    TotalFiles := es.TotalFiles + 1 }

/-- The exclusion state `InspectFile` builds for a parsed file, and the strings it extracts with
it, or the error it returns before extracting (lines 123-139). -/
def InspectFile.extract (env : Env) (es : ExtractStrings) (astFile : File) (fset : FileSet) :
    Outcome × ExtractStrings :=
  match loadExcludedStrings env es with
  | (some err, es) => (.returned (some err), es)
  | (none, es) =>
    match loadExcludedRegexps env es with
    | (some err, es) => (.returned (some err), es)
    | (none, es) => extractString env (excludeImports env es astFile) astFile fset

/-- Go `InspectFile` (lines 86-190). -/
def InspectFile (env : Env) (filename : String) (r : Run) : Outcome × Run :=
  let r := { r with trace := r.trace ++ [Event.InspectFile filename] }
  let es := InspectFile.reset r.es filename
  let absFilePath := InspectFile.absFilePath env filename
  match (env.GetAbsFileInfo absFilePath).1 with
  | none => (.panicked, { r with es := es })
  | some fileInfo =>
    if HasPrefix fileInfo.Name "." then (.returned none, { r with es := es })
    else
      match env.ParseFile absFilePath with
      | .error err => (.returned (some err), { r with es := es })
      | .ok (astFile, fset) =>
        match InspectFile.extract env es astFile fset with
        | (.panicked, es) => (.panicked, { r with es := es })
        | (.returned (some err), es) => (.returned (some err), { r with es := es })
        | (.returned none, es) =>
          let es := InspectFile.count es
          match InspectFile.outputDirname env es absFilePath with
          | (_, some err) => (.returned (some err), { r with es := es })
          | (outputDirname, none) => InspectFile.save env outputDirname { r with es := es }

/-- The loop of `InspectDir` over the files of one package. -/
def InspectDir.files (env : Env) : List String → Run → Outcome × Run
  | [], r => (.returned none, r)
  | fileName :: rest, r =>
    let ignored :=
      match r.es.IgnoreRegexp with
      | some re => env.MatchString re fileName
      | none => false
    if ignored then InspectDir.files env rest r
    else if HasSuffix fileName ".go" then
      match InspectFile env fileName r with
      | (.panicked, r) => (.panicked, r)
      | (.returned _, r) => InspectDir.files env rest r
    else InspectDir.files env rest r

/-- The loop of `InspectDir` over the packages of the directory. -/
def InspectDir.packages (env : Env) : List (String × Package) → Run → Outcome × Run
  | [], r => (.returned none, r)
  | (_, pkg) :: rest, r =>
    match InspectDir.files env pkg.Files r with
    | (.panicked, r) => (.panicked, r)
    | (.returned _, r) => InspectDir.packages env rest r

mutual
/-- Go `InspectDir` (lines 192-238), on the directory tree found at `dirName`. -/
def InspectDir (env : Env) (dirName : String) (recursive : Bool) : DirTree → Run → Outcome × Run
  | .mk packages parseErr entries, r =>
    let r := { r with es := { r.es with TotalStringsDir := 0 } }
    match parseErr with
    | some err => (.returned (some err), r)
    | none =>
      match InspectDir.packages env packages r with
      | (.panicked, r) => (.panicked, r)
      | (.returned _, r) =>
        if recursive then InspectDir.entries env dirName recursive entries r
        else (.returned none, r)
/-- The loop of `InspectDir` over the entries `ioutil.ReadDir` lists. -/
def InspectDir.entries (env : Env) (dirName : String) (recursive : Bool) :
    List (FileInfo × DirTree) → Run → Outcome × Run
  | [], r => (.returned none, r)
  | (fileInfo, sub) :: rest, r =>
    if fileInfo.IsDir && !HasPrefix fileInfo.Name "." then
      match InspectDir env (env.Join [dirName, fileInfo.Name]) recursive sub r with
      | (.panicked, r) => (.panicked, r)
      | (.returned _, r) => InspectDir.entries env dirName recursive rest r
    else InspectDir.entries env dirName recursive rest r
end

/-! ## A model of the library, and small worlds to run the command in -/

namespace strconv

/-- Code points used by the literal syntax. -/
def backslash : Char := Char.ofNat 92
/-- The double quote. -/
def dquote : Char := Char.ofNat 34
/-- The single quote. -/
def squote : Char := Char.ofNat 39
/-- The back quote. -/
def bquote : Char := Char.ofNat 96

/-- Go `unhex`. -/
def unhex (c : Char) : Option Nat :=
  if '0' ≤ c ∧ c ≤ '9' then some (c.toNat - '0'.toNat)
  else if 'a' ≤ c ∧ c ≤ 'f' then some (c.toNat - 'a'.toNat + 10)
  else if 'A' ≤ c ∧ c ≤ 'F' then some (c.toNat - 'A'.toNat + 10)
  else none

/-- The loop of `UnquoteChar` reading `n` hexadecimal digits into `v`. -/
def hexDigits : Nat → List Char → Nat → Option (Nat × List Char)
  | 0, s, v => some (v, s)
  | _ + 1, [], _ => none
  | n + 1, c :: s, v =>
    match unhex c with
    | none => none
    | some x => hexDigits n s (v * 16 + x)

/-- Go `strconv.UnquoteChar`: the first character of `s` decoded, and the rest of `s`; `none`
is a syntax error.  A byte escape (`\x..` or octal) is the character with that code. -/
def UnquoteChar (quote : Char) : List Char → Option (Char × List Char)
  | [] => none
  | c :: s =>
    if c = quote ∧ (quote = squote ∨ quote = dquote) then none
    else if c ≠ backslash then some (c, s)
    else
      match s with
      | [] => none
      | c :: s =>
        if c = 'a' then some (Char.ofNat 7, s)
        else if c = 'b' then some (Char.ofNat 8, s)
        else if c = 'f' then some (Char.ofNat 12, s)
        else if c = 'n' then some (Char.ofNat 10, s)
        else if c = 'r' then some (Char.ofNat 13, s)
        else if c = 't' then some (Char.ofNat 9, s)
        else if c = 'v' then some (Char.ofNat 11, s)
        else if c = 'x' ∨ c = 'u' ∨ c = 'U' then
          match hexDigits (if c = 'x' then 2 else if c = 'u' then 4 else 8) s 0 with
          | none => none
          | some (v, s) =>
            if c = 'x' then some (Char.ofNat v, s)
            else if v.isValidChar then some (Char.ofNat v, s)
            else none
        else if '0' ≤ c ∧ c ≤ '7' then
          match s with
          | d1 :: d2 :: s =>
            if '0' ≤ d1 ∧ d1 ≤ '7' ∧ '0' ≤ d2 ∧ d2 ≤ '7' then
              let v := ((c.toNat - '0'.toNat) * 8 + (d1.toNat - '0'.toNat)) * 8
                + (d2.toNat - '0'.toNat)
              if v > 255 then none else some (Char.ofNat v, s)
            else none
          | _ => none
        else if c = backslash then some (backslash, s)
        else if c = squote ∨ c = dquote then (if c ≠ quote then none else some (c, s))
        else none

/-- The loop of `Unquote` over the text between the quotes; the first argument bounds the
number of rounds, and the length of the text is enough. -/
def Unquote.loop (quote : Char) : Nat → List Char → List Char → Option (List Char)
  | _, [], buf => some buf
  | 0, _ :: _, _ => none
  | n + 1, c :: s, buf =>
    match UnquoteChar quote (c :: s) with
    | none => none
    | some (r, rest) =>
      if quote = squote ∧ rest ≠ [] then none
      else Unquote.loop quote n rest (buf ++ [r])

/-- Go `strconv.Unquote`: the value of a Go string, raw string or character literal. -/
def Unquote (s : String) : Except Error String :=
  let syntaxError : Except Error String := .error ⟨"invalid syntax"⟩
  match s.data with
  | [] => syntaxError
  | [_] => syntaxError
  | quote :: rest =>
    if rest.getLast? ≠ some quote then syntaxError
    else
      let body := rest.dropLast
      if quote = bquote then
        if body.contains bquote then syntaxError else .ok (String.mk body)
      else if quote ≠ dquote ∧ quote ≠ squote then syntaxError
      else if body.contains (Char.ofNat 10) then syntaxError
      else
        match Unquote.loop quote body.length body [] with
        | none => syntaxError
        | some buf => .ok (String.mk buf)

end strconv

/-- A small world: the exclusion config (`none` when there is no config file, an error when
its content is not valid JSON), the source files by absolute path with their parse result, what
`build.ImportDir` answers, the output directory option and the reserved blank forms. -/
structure World where
  blanks : List String
  config : Option (Except Error ExcludedStrings)
  sources : List (String × File)
  importDir : BuildPackage × Option Error
  reverseRange : Bool

/-- A slash-separated path with runs of slashes collapsed into one. -/
def World.clean : List Char → List Char
  | '/' :: '/' :: rest => World.clean ('/' :: rest)
  | c :: rest => c :: World.clean rest
  | [] => []

/-- The file of a world at a path. -/
def World.source (w : World) (path : String) : Option File :=
  (w.sources.find? fun entry => entry.1 = path).map Prod.snd

/-- The environment of a small world.  Paths are slash-separated and absolute when they start
with a slash; positions are resolved on one line; a regular expression is a literal, optionally
anchored at the start by `^`, and `(` alone does not compile. -/
def World.env (w : World) : Env where
  BLANKS := w.blanks
  GetAbsFileInfo := fun path =>
    (some { Name := sliceFrom path (LastIndex path "/" + 1), IsDir := false }, none)
  FindFilePath := fun path =>
    match w.source path with
    | some _ => .ok (String.mk (path.data.take (LastIndex path "/" + 1).toNat))
    | none => .error ⟨"no such file or directory"⟩
  SaveStrings := fun _ _ _ => none
  SaveStringsInPo := fun _ _ _ => none
  Unquote := strconv.Unquote
  Compile := fun expr =>
    if expr = "(" then .error ⟨"error parsing regexp: missing closing )"⟩ else .ok ⟨expr⟩
  MatchString := fun re aString =>
    match re.expr.data with
    | '^' :: lit => lit.isPrefixOf aString.data
    | lit => decide (lit <:+: aString.data)
  IsAbs := fun path => HasPrefix path "/"
  Join := fun elems => String.mk (World.clean ("/".intercalate (elems.filter fun e => e ≠ "")).data)
  PathSeparator := '/'
  Getenv := fun _ => "/home"
  StatIsNotExist := fun _ => w.config.isNone
  ReadFile := fun _ =>
    match w.config with
    | some _ => .ok "config"
    | none => .error ⟨"no such file or directory"⟩
  Create := fun _ => none
  Unmarshal := fun _ =>
    match w.config with
    | some c => c
    | none => .error ⟨"unexpected end of JSON input"⟩
  MarshalIndent := fun infos => .ok (", ".intercalate (infos.map fun i => i.Value))
  ParseFile := fun path =>
    match w.source path with
    | some f =>
      .ok (f, { Position := fun p =>
        { Filename := path, Offset := p, Line := 1, Column := (p : Int) + 1 } })
    | none => .error ⟨"no such file or directory"⟩
  ImportDir := fun _ => w.importDir
  rangeOrder := fun m => if w.reverseRange then m.reverse else m

/-- A string literal token. -/
def stringLit (pos : Nat) (raw : String) : BasicLit :=
  { ValuePos := pos, Kind := Token.STRING, Value := raw }

/-- The file `package p; import "fmt"; func f() { x := "fmt"; y := "hello" }`. -/
def fmtHello : File :=
  { root := .other [.other [],
      .other [.other [.BasicLit (stringLit 18 "\"fmt\"")]],
      .other [.other [], .other [.other []],
        .other [.other [.other [], .BasicLit (stringLit 42 "\"fmt\"")],
          .other [.other [], .BasicLit (stringLit 54 "\"hello\"")]]]]
    Imports := [{ Path := stringLit 18 "\"fmt\"" }] }

/-- The file `package p; func f() { a := "DEBUG: start"; b := "ready" }`. -/
def debugReady : File :=
  { root := .other [.other [],
      .other [.other [], .other [.other []],
        .other [.other [.other [], .BasicLit (stringLit 29 "\"DEBUG: start\"")],
          .other [.other [], .BasicLit (stringLit 50 "\"ready\"")]]]]
    Imports := [] }

/-- Options with every flag off and every string empty, but for the path of the exclusion
config. -/
def plainOptions : Options :=
  { VerboseFlag := false, DryRunFlag := false, PoFlag := false, OutputDirFlag := "",
    OutputMatchImportFlag := false, OutputMatchPackageFlag := false,
    ExcludedFilenameFlag := "excluded.json", IgnoreRegexp := "" }

/-- The run a fresh command starts from. -/
def freshRun (env : Env) (options : Options) : Run :=
  { es := NewExtractStrings env options, trace := [] }

/-- A world with one source file and no exclusion config. -/
def World.single (path : String) (f : File) : World :=
  { blanks := ["", " ", "\t", "\n"], config := none, sources := [(path, f)],
    importDir := ({ Dir := "", Name := "p" }, none), reverseRange := false }

/-! ## Notions used in the statements -/

/-- The basic literal `x` is a token of the tree `n`: it is `n` itself, or a token of the tree
of one of the children of `n`. -/
inductive HasToken (x : BasicLit) : Node → Prop where
  | here : HasToken x (.BasicLit x)
  | child (children : List Node) (c : Node) :
      c ∈ children → HasToken x c → HasToken x (.other children)

/-- The record `extractString` builds for the token `x`. -/
def recordOf (env : Env) (fset : FileSet) (x : BasicLit) : StringInfo :=
  { Value := unquoted env x.Value
    Filename := (fset.Position x.ValuePos).Filename
    Offset := (fset.Position x.ValuePos).Offset
    Line := (fset.Position x.ValuePos).Line
    Column := (fset.Position x.ValuePos).Column }

/-- The tests of `extractString` on a token that come before the call of `filter`. -/
def candidate (env : Env) (x : BasicLit) : Bool :=
  (unquoted env x.Value).length > 0 && x.Kind == Token.STRING &&
    extractString.notWhitespace (unquoted env x.Value)

/-- A token that `extractString` accepts in the exclusion state of `es`, with value `s`. -/
def Accepts (env : Env) (es : ExtractStrings) (x : BasicLit) (s : String) : Prop :=
  x.Kind = Token.STRING ∧ unquoted env x.Value = s ∧ s ≠ "" ∧
    extractString.notWhitespace s = true ∧ filter env es s = some false

/-- The exclusion state `InspectFile` builds from a config that was read and a parsed file. -/
def exclusionState (env : Env) (es : ExtractStrings) (cfg : ExcludedStrings) (astFile : File) :
    ExtractStrings :=
  { es with
    FilteredStrings := excludeImports.loop env astFile.Imports
      (loadExcludedStrings.loop cfg.ExcludedStrings es.FilteredStrings)
    FilteredRegexps :=
      es.FilteredRegexps ++ cfg.ExcludedRegexps.map fun e => (env.Compile e).toOption }

/-- The exclusion state `InspectFile` builds for a parsed file when there is no config file. -/
def exclusionStateNoConfig (env : Env) (es : ExtractStrings) (astFile : File) :
    ExtractStrings :=
  { es with FilteredStrings := excludeImports.loop env astFile.Imports es.FilteredStrings }

/-- The run of `InspectFile` once it has reset the receiver, before it looks at the file. -/
def InspectFile.entered (r : Run) (filename : String) : Run :=
  { es := InspectFile.reset r.es filename, trace := r.trace ++ [Event.InspectFile filename] }

/-- A file name that `InspectDir` hands to `InspectFile`: it is not matched by the ignore
regexp and ends in `.go`. -/
def Inspected (env : Env) (ignore : Option Regexp) (fileName : String) : Prop :=
  (∀ re, ignore = some re → env.MatchString re fileName = false) ∧
    HasSuffix fileName ".go" = true

mutual
/-- The file names of the packages `InspectDir` goes through in a directory tree: those of the
directory itself when it was parsed without error and, when `recursive`, those of the
subdirectories it descends into. -/
def DirTree.files (recursive : Bool) : DirTree → List String
  | .mk packages parseErr entries =>
    match parseErr with
    | some _ => []
    | none =>
      (packages.map fun pkg => pkg.2.Files).flatten ++
        (if recursive then DirTree.filesBelow recursive entries else [])
/-- The file names of `DirTree.files` in the subdirectories among the entries. -/
def DirTree.filesBelow (recursive : Bool) : List (FileInfo × DirTree) → List String
  | [] => []
  | (fileInfo, sub) :: rest =>
    (if fileInfo.IsDir && !HasPrefix fileInfo.Name "." then DirTree.files recursive sub else []) ++
      DirTree.filesBelow recursive rest
end

/-- What stays the same along a run, for a config that is read and fails to parse: the run
goes on without a panic, keeps its options and ignore regexp, and only adds to the trace. -/
def Continues (r r' : Run) : Prop :=
  r'.es.options = r.es.options ∧ r'.es.IgnoreRegexp = r.es.IgnoreRegexp ∧
    r.trace ⊆ r'.trace

/-- The part of `s` before the first occurrence of `sep`, all of `s` when there is none. -/
def cutAt (sep : List Char) : List Char → List Char
  | [] => []
  | c :: cs => if sep.isPrefixOf (c :: cs) then [] else c :: cutAt sep cs

/-- The marker `setFilename` appends and `saveExtractedStrings` splits at. -/
def marker : String := ".extracted.json"

/-- The world of `World.single` with an exclusion config that was read and parsed. -/
def World.configured (path : String) (f : File) (cfg : ExcludedStrings) : World :=
  { World.single path f with config := some (.ok cfg) }

/-- The world of `World.single` with an exclusion config that is not valid JSON. -/
def World.malformed (path : String) (f : File) : World :=
  { World.single path f with config := some (.error ⟨"invalid character"⟩) }

/-- The world of `World.single` where `build.ImportDir` fails on the directory of the file. -/
def World.unresolved (path : String) (f : File) : World :=
  { World.single path f with
    importDir := ({ Dir := "/src/p/", Name := "" },
      some ⟨"found packages p (main.go) and q (other.go) in /src/p/"⟩) }

/-- The world of `World.single` where a `range` yields the entries of a map in reverse. -/
def World.reversed (path : String) (f : File) : World :=
  { World.single path f with reverseRange := true }

/-- The world of `World.single` without reserved blank forms. -/
def World.noBlanks (path : String) (f : File) : World :=
  { World.single path f with blanks := [] }

/-- The file `package p; var a, b, c = "dup", "dup", "one"`. -/
def dupFile : File :=
  { root := .other [.other [],
      .other [.other [.other [], .other [], .other [],
        .BasicLit (stringLit 24 "\"dup\""), .BasicLit (stringLit 31 "\"dup\""),
        .BasicLit (stringLit 38 "\"one\"")]]]
    Imports := [] }

/-- The file `package p; var a, b = "\x09", "\u0020"`. -/
def escapedBlanks : File :=
  { root := .other [.other [],
      .other [.other [.other [], .other [],
        .BasicLit (stringLit 21 "\"\\x09\""), .BasicLit (stringLit 29 "\"\\u0020\"")]]]
    Imports := [] }

/-- A file set that resolves every position on the first line of `main.go`. -/
def lineOne : FileSet :=
  { Position := fun p => { Filename := "main.go", Offset := p, Line := 1, Column := (p : Int) + 1 } }

/-- Options of `plainOptions` with an output directory. -/
def outOptions (matchImport matchPackage : Bool) : Options :=
  { plainOptions with
    OutputDirFlag := "out", OutputMatchImportFlag := matchImport,
    OutputMatchPackageFlag := matchPackage }

/-- The file of the first example, with no exclusion config. -/
def helloWorld : World := World.single "/src/p/main.go" fmtHello

/-- The file of the second example, with the config `excludedStrings: ["skip"]`,
`excludedRegexps: ["^DEBUG"]`. -/
def debugWorld : World := World.configured "/src/p/main.go" debugReady ⟨["skip"], ["^DEBUG"]⟩

/-- The file of the second example, with the config `excludedRegexps: ["^DEBUG"]`. -/
def regexpWorld : World := World.configured "/src/p/main.go" debugReady ⟨[], ["^DEBUG"]⟩

/-- The file with a repeated literal, with no exclusion config. -/
def dupWorld : World := World.single "/src/p/main.go" dupFile

/-- The file of the first example, with the config `excludedRegexps: ["("]`. -/
def badRegexpWorld : World := World.configured "/src/p/main.go" fmtHello ⟨[], ["("]⟩

/-- The file of the first example, with a config that is not valid JSON. -/
def malformedWorld : World := World.malformed "/src/p/main.go" fmtHello

/-- The file of the first example, in a directory `build.ImportDir` fails on. -/
def unresolvedWorld : World := World.unresolved "/src/p/main.go" fmtHello

/-- The file of the second example with no exclusion config, two literals extracted. -/
def twoWorld : World := World.single "/src/p/main.go" debugReady

/-- The world of `twoWorld` with the other iteration order. -/
def twoWorldReversed : World := World.reversed "/src/p/main.go" debugReady

/-- The file with escaped blanks, with no exclusion config and no reserved blank forms. -/
def escapedWorld : World := World.noBlanks "/src/p/main.go" escapedBlanks

/-- The file of the first example at `pkg/main.go` below the working directory. -/
def relativeWorld : World := World.single "/home/pkg/main.go" fmtHello

/-- The file of the first example at `x.extracted.json.go` in the working directory. -/
def markedWorld : World := World.single "/home/x.extracted.json.go" fmtHello

instance (env : Env) (es : ExtractStrings) (x : BasicLit) (s : String) :
    Decidable (Accepts env es x s) := by
  unfold Accepts
  infer_instance

/-- The hidden file `/src/p/.hidden.go`, with a config that is not valid JSON. -/
def hiddenWorld : World := World.malformed "/src/p/.hidden.go" fmtHello

/-- The directory `/src/p` as `InspectDir` sees it when `other.go` does not parse:
`parser.ParseDir` reports the package with `main.go` and the error. -/
def brokenDir : DirTree :=
  .mk [("p", { Files := ["/src/p/main.go"] })]
    (some ⟨"/src/p/other.go:1:1: expected 'package', found 'EOF'"⟩) []

/-- The directory `/src/p` with the two files `main.go` and `other.go` of one package. -/
def plainDir : DirTree :=
  .mk [("p", { Files := ["/src/p/main.go", "/src/p/other.go"] })] none []

/-! ## Maps -/

theorem GoMap.get?_set {V : Type} (m : GoMap V) (k k' : String) (v : V) :
    (m.set k v).get? k' = if k = k' then some v else m.get? k' := by
  induction m with
  | nil => simp [GoMap.set, GoMap.get?]
  | cons p m ih =>
    obtain ⟨a, b⟩ := p
    by_cases hak : a = k
    · subst hak
      simp only [GoMap.set, GoMap.get?, if_true]
      split <;> rfl
    · by_cases hak' : a = k'
      · subst hak'
        have hka : ¬ k = a := fun h => hak h.symm
        simp [GoMap.set, GoMap.get?, hak, hka]
      · simp [GoMap.set, GoMap.get?, hak, hak', ih]

theorem GoMap.mem_keys_set {V : Type} (m : GoMap V) (k s : String) (v : V) :
    s ∈ (m.set k v).keys ↔ s = k ∨ s ∈ m.keys := by
  induction m with
  | nil => simp [GoMap.set, GoMap.keys]
  | cons p m ih =>
    obtain ⟨a, b⟩ := p
    by_cases hak : a = k
    · subst hak
      simp [GoMap.set, GoMap.keys]
    · simp only [GoMap.keys] at ih
      simp only [GoMap.set, hak, if_false, GoMap.keys, List.map_cons, List.mem_cons, ih]
      tauto

theorem GoMap.nodup_keys_set {V : Type} (m : GoMap V) (k : String) (v : V)
    (h : m.keys.Nodup) : (m.set k v).keys.Nodup := by
  induction m with
  | nil => simp [GoMap.set, GoMap.keys]
  | cons p m ih =>
    obtain ⟨a, b⟩ := p
    have h' : a ∉ GoMap.keys m ∧ (GoMap.keys m).Nodup := by
      simpa [GoMap.keys] using h
    by_cases hak : a = k
    · subst hak
      simpa [GoMap.set, GoMap.keys] using h
    · have hmem : a ∉ (GoMap.set m k v).keys := by
        rw [GoMap.mem_keys_set]
        rintro (h1 | h1)
        · exact hak h1
        · exact h'.1 h1
      have hnd := ih h'.2
      simp only [GoMap.keys] at hmem hnd
      simp [GoMap.set, hak, GoMap.keys, hmem, hnd]

theorem GoMap.mem_keys_of_get? {V : Type} (m : GoMap V) (k : String) (v : V)
    (h : m.get? k = some v) : k ∈ m.keys := by
  induction m with
  | nil => simp [GoMap.get?] at h
  | cons p m ih =>
    obtain ⟨a, b⟩ := p
    by_cases hak : a = k
    · simp [GoMap.keys, hak]
    · simp only [GoMap.get?, hak, if_false] at h
      have := ih h
      simp only [GoMap.keys] at this
      simp [GoMap.keys, this]

theorem GoMap.index_set (m : GoMap String) (k k' : String) :
    (m.set k k).index k' = if k = k' then k else m.index k' := by
  simp only [GoMap.index, GoMap.get?_set]
  split <;> simp

/-! ## The exclusion predicate -/

theorem length_pos_of_ne_empty (s : String) (h : s ≠ "") : s.length > 0 := by
  obtain ⟨l⟩ := s
  cases l with
  | nil => exact absurd rfl h
  | cons c cs => simp [String.length]

theorem ne_empty_of_length_pos (s : String) (h : s.length > 0) : s ≠ "" := by
  rintro rfl
  simp at h

theorem filter.regexps_eq_false (env : Env) (rs : List (Option Regexp)) (s : String) :
    filter.regexps env rs s = some false ↔
      ∀ r ∈ rs, ∃ re, r = some re ∧ env.MatchString re s = false := by
  induction rs with
  | nil => simp [filter.regexps]
  | cons r rs ih =>
    cases r with
    | none => simp [filter.regexps]
    | some re =>
      by_cases hm : env.MatchString re s = true
      · simp [filter.regexps, hm]
      · simp [filter.regexps, hm, ih]

theorem filter.regexps_none_mem (env : Env) (rs : List (Option Regexp)) (s : String)
    (h : filter.regexps env rs s = none) : none ∈ rs := by
  induction rs with
  | nil => simp [filter.regexps] at h
  | cons r rs ih =>
    cases r with
    | none => simp
    | some re =>
      by_cases hm : env.MatchString re s = true
      · simp [filter.regexps, hm] at h
      · simp only [filter.regexps, hm] at h
        simp [ih h]

theorem filter.regexps_ne_none (env : Env) (rs : List (Option Regexp)) (s : String)
    (h : none ∉ rs) : filter.regexps env rs s ≠ none :=
  fun hn => h (filter.regexps_none_mem env rs s hn)

theorem filter.regexps_ne_false (env : Env) (rs : List (Option Regexp)) (s : String)
    (h : none ∈ rs) : filter.regexps env rs s ≠ some false := by
  intro hf
  obtain ⟨re, hre, _⟩ := (filter.regexps_eq_false env rs s).1 hf none h
  cases hre

theorem filter_eq_false (env : Env) (es : ExtractStrings) (s : String) :
    filter env es s = some false ↔
      s ∉ env.BLANKS ∧ es.FilteredStrings.index s = "" ∧
        filter.regexps env es.FilteredRegexps s = some false := by
  unfold filter
  by_cases hb : s ∈ env.BLANKS
  · simp [hb]
  · by_cases hf : es.FilteredStrings.index s = ""
    · simp [hb, hf]
    · simp [hb, hf]

theorem filter_none_mem (env : Env) (es : ExtractStrings) (s : String)
    (h : filter env es s = none) : none ∈ es.FilteredRegexps := by
  unfold filter at h
  split at h
  · cases h
  · split at h
    · cases h
    · exact filter.regexps_none_mem env _ s h

theorem filter_congr (env : Env) (es es' : ExtractStrings)
    (h1 : es'.FilteredStrings = es.FilteredStrings)
    (h2 : es'.FilteredRegexps = es.FilteredRegexps) (s : String) :
    filter env es' s = filter env es s := by
  simp [filter, h1, h2]

/-! ## The walk of `extractString` -/

theorem candidate_iff (env : Env) (x : BasicLit) :
    candidate env x = true ↔
      unquoted env x.Value ≠ "" ∧ x.Kind = Token.STRING ∧
        extractString.notWhitespace (unquoted env x.Value) = true := by
  simp only [candidate, Bool.and_eq_true, decide_eq_true_eq, beq_iff_eq]
  constructor
  · rintro ⟨⟨h1, h2⟩, h3⟩
    exact ⟨ne_empty_of_length_pos _ h1, h2, h3⟩
  · rintro ⟨h1, h2, h3⟩
    exact ⟨⟨length_pos_of_ne_empty _ h1, h2⟩, h3⟩

theorem visit_other (env : Env) (fset : FileSet) (es : ExtractStrings) (cs : List Node) :
    extractString.visit env fset es (.other cs) = some es := rfl

theorem visit_basicLit (env : Env) (fset : FileSet) (es : ExtractStrings) (x : BasicLit) :
    extractString.visit env fset es (.BasicLit x) =
      if candidate env x then
        match filter env es (unquoted env x.Value) with
        | none => none
        | some true => some es
        | some false =>
          some { es with ExtractedStrings :=
            es.ExtractedStrings.set (unquoted env x.Value) (recordOf env fset x) }
      else some es := rfl

theorem visit_frame (env : Env) (fset : FileSet) (es es' : ExtractStrings) (n : Node)
    (h : extractString.visit env fset es n = some es') :
    ∃ m, es' = { es with ExtractedStrings := m } := by
  cases n with
  | other cs =>
    rw [visit_other] at h
    cases h
    exact ⟨es.ExtractedStrings, rfl⟩
  | BasicLit x =>
    rw [visit_basicLit] at h
    split at h
    · split at h
      · cases h
      · cases h
        exact ⟨es.ExtractedStrings, rfl⟩
      · cases h
        exact ⟨_, rfl⟩
    · cases h
      exact ⟨es.ExtractedStrings, rfl⟩

theorem walk_frame (env : Env) (fset : FileSet) (nodes : List Node) (es : ExtractStrings) :
    ∃ m, (extractString.walk env fset nodes es).2 = { es with ExtractedStrings := m } := by
  induction nodes generalizing es with
  | nil => exact ⟨es.ExtractedStrings, rfl⟩
  | cons n rest ih =>
    simp only [extractString.walk]
    cases hv : extractString.visit env fset es n with
    | none => exact ⟨es.ExtractedStrings, rfl⟩
    | some es' =>
      obtain ⟨m, hm⟩ := visit_frame env fset es es' n hv
      obtain ⟨m', hm'⟩ := ih es'
      refine ⟨m', ?_⟩
      simp only [hm']
      rw [hm]

theorem walk_keys (env : Env) (fset : FileSet) (nodes : List Node) (es : ExtractStrings)
    (s : String) :
    s ∈ (extractString.walk env fset nodes es).2.ExtractedStrings.keys ↔
      s ∈ es.ExtractedStrings.keys ∨ ∃ x, Node.BasicLit x ∈ nodes ∧ Accepts env es x s := by
  induction nodes generalizing es with
  | nil => simp [extractString.walk]
  | cons n rest ih =>
    cases n with
    | other cs =>
      simp only [extractString.walk, visit_other, ih es, List.mem_cons, reduceCtorEq, false_or]
    | BasicLit x0 =>
      simp only [extractString.walk, visit_basicLit]
      by_cases hc : candidate env x0 = true
      · simp only [if_pos hc]
        cases hf : filter env es (unquoted env x0.Value) with
        | none =>
          have hnil := filter_none_mem env es _ hf
          simp only
          constructor
          · exact fun h => Or.inl h
          · rintro (h | ⟨x, _, hx⟩)
            · exact h
            · exact absurd ((filter_eq_false env es s).1 hx.2.2.2.2).2.2
                (filter.regexps_ne_false env _ s hnil)
        | some b =>
          cases b with
          | true =>
            simp only [ih es, List.mem_cons, Node.BasicLit.injEq]
            constructor
            · rintro (h | ⟨x, hx, ha⟩)
              · exact Or.inl h
              · exact Or.inr ⟨x, Or.inr hx, ha⟩
            · rintro (h | ⟨x, hx | hx, ha⟩)
              · exact Or.inl h
              · subst hx
                obtain ⟨_, h2, _, _, h5⟩ := ha
                rw [← h2, hf] at h5
                cases h5
              · exact Or.inr ⟨x, hx, ha⟩
          | false =>
            simp only [ih, List.mem_cons, Node.BasicLit.injEq, GoMap.mem_keys_set]
            have hacc : Accepts env es x0 (unquoted env x0.Value) := by
              have := (candidate_iff env x0).1 hc
              exact ⟨this.2.1, rfl, this.1, this.2.2, hf⟩
            have hcongr : ∀ (m : GoMap StringInfo) x,
                Accepts env { es with ExtractedStrings := m } x s ↔ Accepts env es x s := by
              intro m x
              have hfc := filter_congr env es { es with ExtractedStrings := m } rfl rfl s
              simp only [Accepts, hfc]
            constructor
            · rintro ((h | h) | ⟨x, hx, ha⟩)
              · subst h
                exact Or.inr ⟨x0, Or.inl rfl, hacc⟩
              · exact Or.inl h
              · exact Or.inr ⟨x, Or.inr hx, (hcongr _ x).1 ha⟩
            · rintro (h | ⟨x, hx | hx, ha⟩)
              · exact Or.inl (Or.inr h)
              · subst hx
                exact Or.inl (Or.inl ha.2.1.symm)
              · exact Or.inr ⟨x, hx, (hcongr _ x).2 ha⟩
      · simp only [if_neg hc, ih es, List.mem_cons, Node.BasicLit.injEq]
        constructor
        · rintro (h | ⟨x, hx, ha⟩)
          · exact Or.inl h
          · exact Or.inr ⟨x, Or.inr hx, ha⟩
        · rintro (h | ⟨x, hx | hx, ha⟩)
          · exact Or.inl h
          · subst hx
            obtain ⟨h1, h2, h3, h4, _⟩ := ha
            subst h2
            exact absurd ((candidate_iff env x).2 ⟨h3, h1, h4⟩) hc
          · exact Or.inr ⟨x, hx, ha⟩

theorem walk_append (env : Env) (fset : FileSet) (a b : List Node) (es : ExtractStrings) :
    extractString.walk env fset (a ++ b) es =
      match extractString.walk env fset a es with
      | (.panicked, es') => (.panicked, es')
      | (.returned _, es') => extractString.walk env fset b es' := by
  induction a generalizing es with
  | nil => simp [extractString.walk]
  | cons n rest ih =>
    simp only [List.cons_append, extractString.walk]
    cases hv : extractString.visit env fset es n with
    | none => rfl
    | some es' => exact ih es'

theorem visit_ne_none (env : Env) (fset : FileSet) (es : ExtractStrings) (n : Node)
    (h : none ∉ es.FilteredRegexps) : extractString.visit env fset es n ≠ none := by
  cases n with
  | other cs => simp [visit_other]
  | BasicLit x =>
    rw [visit_basicLit]
    split
    · cases hf : filter env es (unquoted env x.Value) with
      | none => exact absurd (filter_none_mem env es _ hf) h
      | some b => cases b <;> simp
    · simp

theorem walk_returns (env : Env) (fset : FileSet) (nodes : List Node) (es : ExtractStrings)
    (h : none ∉ es.FilteredRegexps) :
    (extractString.walk env fset nodes es).1 = .returned none := by
  induction nodes generalizing es with
  | nil => rfl
  | cons n rest ih =>
    simp only [extractString.walk]
    cases hv : extractString.visit env fset es n with
    | none => exact absurd hv (visit_ne_none env fset es n h)
    | some es' =>
      obtain ⟨m, hm⟩ := visit_frame env fset es es' n hv
      exact ih es' (by rw [hm]; exact h)

theorem walk_get?_of_absent (env : Env) (fset : FileSet) (nodes : List Node)
    (es : ExtractStrings) (s : String)
    (h : ∀ x, Node.BasicLit x ∈ nodes → x.Kind = Token.STRING → unquoted env x.Value ≠ s) :
    (extractString.walk env fset nodes es).2.ExtractedStrings.get? s =
      es.ExtractedStrings.get? s := by
  induction nodes generalizing es with
  | nil => rfl
  | cons n rest ih =>
    have hrest : ∀ x, Node.BasicLit x ∈ rest → x.Kind = Token.STRING →
        unquoted env x.Value ≠ s := fun x hx => h x (List.mem_cons_of_mem _ hx)
    cases n with
    | other cs => simp only [extractString.walk, visit_other, ih es hrest]
    | BasicLit x0 =>
      simp only [extractString.walk, visit_basicLit]
      by_cases hc : candidate env x0 = true
      · simp only [if_pos hc]
        cases hf : filter env es (unquoted env x0.Value) with
        | none => rfl
        | some b =>
          cases b with
          | true => exact ih es hrest
          | false =>
            simp only
            rw [ih _ hrest]
            simp only [GoMap.get?_set]
            have hne := h x0 (List.mem_cons_self _ _) ((candidate_iff env x0).1 hc).2.1
            simp [hne]
      · simp only [if_neg hc]
        exact ih es hrest

theorem walk_nodup (env : Env) (fset : FileSet) (nodes : List Node) (es : ExtractStrings)
    (h : es.ExtractedStrings.keys.Nodup) :
    (extractString.walk env fset nodes es).2.ExtractedStrings.keys.Nodup := by
  induction nodes generalizing es with
  | nil => exact h
  | cons n rest ih =>
    cases n with
    | other cs => simp only [extractString.walk, visit_other]; exact ih es h
    | BasicLit x0 =>
      simp only [extractString.walk, visit_basicLit]
      by_cases hc : candidate env x0 = true
      · simp only [if_pos hc]
        cases hf : filter env es (unquoted env x0.Value) with
        | none => exact h
        | some b =>
          cases b with
          | true => exact ih es h
          | false => exact ih _ (GoMap.nodup_keys_set _ _ _ h)
      · simp only [if_neg hc]
        exact ih es h

/-! ## Building the exclusion state -/

theorem loadExcludedStrings.loop_keeps_index (l : List String) (m : GoMap String)
    (k : String) (h : m.index k = k) : (loadExcludedStrings.loop l m).index k = k := by
  induction l generalizing m with
  | nil => exact h
  | cons s rest ih =>
    apply ih
    rw [GoMap.index_set]
    split
    · assumption
    · exact h

theorem loadExcludedStrings.loop_index_of_mem (l : List String) (m : GoMap String)
    (k : String) (h : k ∈ l) : (loadExcludedStrings.loop l m).index k = k := by
  induction l generalizing m with
  | nil => cases h
  | cons s rest ih =>
    rcases List.mem_cons.1 h with h1 | h1
    · subst h1
      show (loadExcludedStrings.loop rest (m.set k k)).index k = k
      apply loadExcludedStrings.loop_keeps_index
      rw [GoMap.index_set]
      simp
    · exact ih _ h1

theorem excludeImports.loop_keeps_import_index (env : Env) (l : List ImportSpec)
    (m : GoMap String) (k : String) (h : m.index k = k) :
    (excludeImports.loop env l m).index k = k := by
  induction l generalizing m with
  | nil => exact h
  | cons s rest ih =>
    apply ih
    rw [GoMap.index_set]
    split
    · assumption
    · exact h

theorem excludeImports.loop_index_of_import (env : Env) (l : List ImportSpec)
    (m : GoMap String) (spec : ImportSpec) (h : spec ∈ l) :
    (excludeImports.loop env l m).index (unquoted env spec.Path.Value) =
      unquoted env spec.Path.Value := by
  induction l generalizing m with
  | nil => cases h
  | cons s rest ih =>
    rcases List.mem_cons.1 h with h1 | h1
    · subst h1
      show (excludeImports.loop env rest (m.set (unquoted env spec.Path.Value)
        (unquoted env spec.Path.Value))).index (unquoted env spec.Path.Value) = _
      apply excludeImports.loop_keeps_import_index
      rw [GoMap.index_set]
      simp
    · exact ih _ h1

theorem loadExcludedRegexps.loop_eq (env : Env) (l : List String)
    (rs : List (Option Regexp)) :
    loadExcludedRegexps.loop env l rs = rs ++ l.map fun e => (env.Compile e).toOption := by
  induction l generalizing rs with
  | nil => simp [loadExcludedRegexps.loop]
  | cons s rest ih => simp [loadExcludedRegexps.loop, ih]

theorem loadExcludedStrings_frame (env : Env) (es : ExtractStrings) :
    ∃ fs, (loadExcludedStrings env es).2 = { es with FilteredStrings := fs } := by
  unfold loadExcludedStrings
  split
  · exact ⟨es.FilteredStrings, rfl⟩
  · split
    · exact ⟨es.FilteredStrings, rfl⟩
    · split
      · exact ⟨es.FilteredStrings, rfl⟩
      · exact ⟨_, rfl⟩

theorem loadExcludedRegexps_frame (env : Env) (es : ExtractStrings) :
    ∃ rs, (loadExcludedRegexps env es).2 = { es with FilteredRegexps := rs } := by
  unfold loadExcludedRegexps
  split
  · exact ⟨es.FilteredRegexps, rfl⟩
  · split
    · exact ⟨es.FilteredRegexps, rfl⟩
    · split
      · exact ⟨es.FilteredRegexps, rfl⟩
      · exact ⟨_, rfl⟩

theorem loadExcludedStrings_of_config (env : Env) (es : ExtractStrings) (content : String)
    (cfg : ExcludedStrings)
    (hstat : env.StatIsNotExist es.options.ExcludedFilenameFlag = false)
    (hread : env.ReadFile es.options.ExcludedFilenameFlag = .ok content)
    (hjson : env.Unmarshal content = .ok cfg) :
    loadExcludedStrings env es = (none, { es with FilteredStrings :=
      (loadExcludedStrings.loop cfg.ExcludedStrings es.FilteredStrings) }) := by
  simp [loadExcludedStrings, hstat, hread, hjson]

theorem loadExcludedRegexps_of_config (env : Env) (es : ExtractStrings) (content : String)
    (cfg : ExcludedStrings)
    (hstat : env.StatIsNotExist es.options.ExcludedFilenameFlag = false)
    (hread : env.ReadFile es.options.ExcludedFilenameFlag = .ok content)
    (hjson : env.Unmarshal content = .ok cfg) :
    loadExcludedRegexps env es = (none, { es with FilteredRegexps :=
      (es.FilteredRegexps ++ cfg.ExcludedRegexps.map fun e => (env.Compile e).toOption) }) := by
  simp [loadExcludedRegexps, hstat, hread, hjson, loadExcludedRegexps.loop_eq]

theorem extract_of_config (env : Env) (es : ExtractStrings) (astFile : File) (fset : FileSet)
    (content : String) (cfg : ExcludedStrings)
    (hstat : env.StatIsNotExist es.options.ExcludedFilenameFlag = false)
    (hread : env.ReadFile es.options.ExcludedFilenameFlag = .ok content)
    (hjson : env.Unmarshal content = .ok cfg) :
    InspectFile.extract env es astFile fset =
      extractString env (exclusionState env es cfg astFile) astFile fset := by
  unfold InspectFile.extract
  rw [loadExcludedStrings_of_config env es content cfg hstat hread hjson]
  simp only
  have h2 := loadExcludedRegexps_of_config env
    { es with FilteredStrings :=
        (loadExcludedStrings.loop cfg.ExcludedStrings es.FilteredStrings) }
    content cfg hstat hread hjson
  rw [h2]
  rfl

theorem extract_of_noConfig (env : Env) (es : ExtractStrings) (astFile : File) (fset : FileSet)
    (hstat : env.StatIsNotExist es.options.ExcludedFilenameFlag = true) :
    InspectFile.extract env es astFile fset =
      extractString env (exclusionStateNoConfig env es astFile) astFile fset := by
  simp [InspectFile.extract, loadExcludedStrings, loadExcludedRegexps, hstat, excludeImports,
    exclusionStateNoConfig]

theorem extract_of_malformed (env : Env) (es : ExtractStrings) (astFile : File) (fset : FileSet)
    (content : String) (err : Error)
    (hstat : env.StatIsNotExist es.options.ExcludedFilenameFlag = false)
    (hread : env.ReadFile es.options.ExcludedFilenameFlag = .ok content)
    (hjson : env.Unmarshal content = .error err) :
    InspectFile.extract env es astFile fset = (.returned (some err), es) := by
  simp [InspectFile.extract, loadExcludedStrings, hstat, hread, hjson]

/-! ## The tokens of a tree -/

theorem preorder_subset_preorderList (c : Node) (cs : List Node) (hc : c ∈ cs) :
    c.preorder ⊆ Node.preorderList cs := by
  induction cs with
  | nil => cases hc
  | cons d ds ih =>
    intro n hn
    rw [Node.preorderList]
    rcases List.mem_cons.1 hc with h | h
    · subst h
      exact List.mem_append_left _ hn
    · exact List.mem_append_right _ (ih h hn)

theorem mem_preorder_of_hasToken (x : BasicLit) (n : Node) (h : HasToken x n) :
    Node.BasicLit x ∈ n.preorder := by
  induction h with
  | here => simp [Node.preorder]
  | child children c hc _ ih =>
    rw [Node.preorder]
    exact List.mem_cons_of_mem _ (preorder_subset_preorderList c children hc ih)

mutual
theorem hasToken_of_mem_preorder (x : BasicLit) :
    ∀ n : Node, Node.BasicLit x ∈ n.preorder → HasToken x n
  | .BasicLit y, h => by
    rw [Node.preorder] at h
    simp only [List.mem_singleton, Node.BasicLit.injEq] at h
    subst h
    exact HasToken.here
  | .other cs, h => by
    rw [Node.preorder] at h
    simp only [List.mem_cons, reduceCtorEq, false_or] at h
    obtain ⟨c, hc, hx⟩ := hasToken_of_mem_preorderList x cs h
    exact HasToken.child cs c hc hx
theorem hasToken_of_mem_preorderList (x : BasicLit) :
    ∀ cs : List Node, Node.BasicLit x ∈ Node.preorderList cs → ∃ c ∈ cs, HasToken x c
  | [], h => by
    rw [Node.preorderList] at h
    cases h
  | c :: cs, h => by
    rw [Node.preorderList] at h
    rcases List.mem_append.1 h with h | h
    · exact ⟨c, List.mem_cons_self _ _, hasToken_of_mem_preorder x c h⟩
    · obtain ⟨d, hd, hx⟩ := hasToken_of_mem_preorderList x cs h
      exact ⟨d, List.mem_cons_of_mem _ hd, hx⟩
end

/-- The nodes `ast.Inspect` visits hold every token of the tree, and nothing else as a basic
literal. -/
theorem mem_preorder_iff_hasToken (x : BasicLit) (n : Node) :
    Node.BasicLit x ∈ n.preorder ↔ HasToken x n :=
  ⟨hasToken_of_mem_preorder x n, mem_preorder_of_hasToken x n⟩

theorem notWhitespace_iff (s : String) :
    extractString.notWhitespace s = true ↔ s ≠ "\t" ∧ s ≠ "\n" ∧ s ≠ " " := by
  simp [extractString.notWhitespace, and_assoc]

theorem saveExtractedStrings_es (env : Env) (d : String) (r : Run) :
    (saveExtractedStrings env d r).2.es = r.es := by
  unfold saveExtractedStrings
  simp only
  split
  · rfl
  · split
    · split <;> rfl
    · rfl

theorem save_es (env : Env) (d : String) (r : Run) :
    (InspectFile.save env d r).2.es = r.es := by
  unfold InspectFile.save
  have h := saveExtractedStrings_es env d r
  split
  · next err r' heq => rw [heq] at h; exact h
  · next r' heq =>
    rw [heq] at h
    simp only at h
    simp only
    split
    · exact h
    · split
      · split <;> exact h
      · exact h

theorem extract_cases (env : Env) (es : ExtractStrings) (astFile : File) (fset : FileSet) :
    (InspectFile.extract env es astFile fset).2.ExtractedStrings = es.ExtractedStrings ∨
      ∃ fs rs, InspectFile.extract env es astFile fset =
        extractString env { es with
          FilteredStrings := (excludeImports.loop env astFile.Imports fs)
          FilteredRegexps := rs } astFile fset := by
  unfold InspectFile.extract
  obtain ⟨fs, hfs⟩ := loadExcludedStrings_frame env es
  cases h1 : loadExcludedStrings env es with
  | mk o1 es1 =>
    rw [h1] at hfs
    simp only at hfs
    subst hfs
    cases o1 with
    | some err => exact Or.inl rfl
    | none =>
      simp only
      obtain ⟨rs, hrs⟩ := loadExcludedRegexps_frame env { es with FilteredStrings := fs }
      cases h2 : loadExcludedRegexps env { es with FilteredStrings := fs } with
      | mk o2 es2 =>
        rw [h2] at hrs
        simp only at hrs
        subst hrs
        cases o2 with
        | some err => exact Or.inl rfl
        | none => exact Or.inr ⟨fs, rs, rfl⟩

theorem InspectFile_es (env : Env) (filename : String) (r : Run) :
    (InspectFile env filename r).2.es = InspectFile.reset r.es filename ∨
    ∃ astFile fset,
      env.ParseFile (InspectFile.absFilePath env filename) = .ok (astFile, fset) ∧
      ((InspectFile env filename r).2.es =
          (InspectFile.extract env (InspectFile.reset r.es filename) astFile fset).2 ∨
        (InspectFile env filename r).2.es = InspectFile.count
          (InspectFile.extract env (InspectFile.reset r.es filename) astFile fset).2) := by
  unfold InspectFile
  simp only
  split
  · exact Or.inl rfl
  · split
    · exact Or.inl rfl
    · split
      · exact Or.inl rfl
      · next astFile fset hparse =>
        refine Or.inr ⟨astFile, fset, hparse, ?_⟩
        split
        · next es' heq => rw [heq]; exact Or.inl rfl
        · next err es' heq => rw [heq]; exact Or.inl rfl
        · next es' heq =>
          rw [heq]
          simp only
          split
          · exact Or.inr rfl
          · exact Or.inr (save_es env _ _)

theorem reset_extracted (es : ExtractStrings) (filename : String) :
    (InspectFile.reset es filename).ExtractedStrings = [] := rfl

theorem reset_options (es : ExtractStrings) (filename : String) :
    (InspectFile.reset es filename).options = es.options := rfl

theorem count_extracted (es : ExtractStrings) :
    (InspectFile.count es).ExtractedStrings = es.ExtractedStrings := rfl

/-- What `InspectFile` leaves in `ExtractedStrings`: nothing, or what `InspectFile.extract`
found in the parsed file. -/
theorem InspectFile_extracted (env : Env) (filename : String) (r : Run) :
    (InspectFile env filename r).2.es.ExtractedStrings = [] ∨
    ∃ astFile fset,
      env.ParseFile (InspectFile.absFilePath env filename) = .ok (astFile, fset) ∧
      (InspectFile env filename r).2.es.ExtractedStrings =
        (InspectFile.extract env (InspectFile.reset r.es filename)
          astFile fset).2.ExtractedStrings := by
  rcases InspectFile_es env filename r with h | ⟨astFile, fset, hp, h | h⟩
  · exact Or.inl (by rw [h]; rfl)
  · exact Or.inr ⟨astFile, fset, hp, by rw [h]⟩
  · exact Or.inr ⟨astFile, fset, hp, by rw [h]; rfl⟩

theorem mem_keys_extractString (env : Env) (es : ExtractStrings) (f : File) (fset : FileSet)
    (s : String) (hempty : es.ExtractedStrings = []) :
    s ∈ (extractString env es f fset).2.ExtractedStrings.keys ↔
      ∃ x, Node.BasicLit x ∈ f.root.preorder ∧ Accepts env es x s := by
  unfold extractString
  rw [walk_keys, hempty]
  simp [GoMap.keys]

/-- C1. Every key of `ExtractedStrings` after `InspectFile` is the value of a string literal of
the parsed file that is not a reserved blank form (not empty, not in `BLANKS`, not a lone tab,
newline or space), is not listed in the `excludedStrings` of the config, is not the unquoted
path of an import of the file, and is matched by none of the `excludedRegexps` that compiled. -/
theorem extracted_keys_pass_exclusion (env : Env) (filename : String) (r : Run) (s : String)
    (hs : s ∈ (InspectFile env filename r).2.es.ExtractedStrings.keys) :
    (s ≠ "" ∧ s ∉ env.BLANKS ∧ s ≠ "\t" ∧ s ≠ "\n" ∧ s ≠ " ") ∧
    (∀ content cfg, env.StatIsNotExist r.es.options.ExcludedFilenameFlag = false →
      env.ReadFile r.es.options.ExcludedFilenameFlag = .ok content →
      env.Unmarshal content = .ok cfg →
      s ∉ cfg.ExcludedStrings ∧
      ∀ expr ∈ cfg.ExcludedRegexps, ∀ re, env.Compile expr = .ok re →
        env.MatchString re s = false) ∧
    (∀ astFile fset,
      env.ParseFile (InspectFile.absFilePath env filename) = .ok (astFile, fset) →
      (∀ spec ∈ astFile.Imports, unquoted env spec.Path.Value ≠ s) ∧
      ∃ x, Node.BasicLit x ∈ astFile.root.preorder ∧ x.Kind = Token.STRING ∧
        unquoted env x.Value = s) := by
  rcases InspectFile_extracted env filename r with h | ⟨astFile, fset, hp, h⟩
  · rw [h] at hs
    cases hs
  · rw [h] at hs
    have hne : s ≠ "" ∧ s ∉ env.BLANKS ∧ (s ≠ "\t" ∧ s ≠ "\n" ∧ s ≠ " ") ∧
        (∀ spec ∈ astFile.Imports, unquoted env spec.Path.Value ≠ s) ∧
        ∃ x, Node.BasicLit x ∈ astFile.root.preorder ∧ x.Kind = Token.STRING ∧
          unquoted env x.Value = s := by
      rcases extract_cases env (InspectFile.reset r.es filename) astFile fset with hc | hc
      · rw [hc, reset_extracted] at hs
        cases hs
      · obtain ⟨fs, rs, hc⟩ := hc
        rw [hc, mem_keys_extractString _ _ _ _ _ rfl] at hs
        obtain ⟨x, hx, hk, hv, hne, hw, hf⟩ := hs
        have hf' := (filter_eq_false env _ s).1 hf
        refine ⟨hne, hf'.1, (notWhitespace_iff s).1 hw, ?_, x, hx, hk, hv⟩
        intro spec hspec heq
        have := excludeImports.loop_index_of_import env astFile.Imports fs spec hspec
        rw [heq] at this
        have h2 : GoMap.index (excludeImports.loop env astFile.Imports fs) s = "" := hf'.2.1
        rw [this] at h2
        exact hne h2
    refine ⟨⟨hne.1, hne.2.1, hne.2.2.1⟩, ?_, ?_⟩
    · intro content cfg hstat hread hjson
      rw [extract_of_config env (InspectFile.reset r.es filename) astFile fset content cfg hstat
        hread hjson,
        mem_keys_extractString _ _ _ _ _ rfl] at hs
      obtain ⟨x, hx, hk, hv, hne', hw, hf⟩ := hs
      have hf' := (filter_eq_false env _ s).1 hf
      constructor
      · intro hmem
        have h1 := loadExcludedStrings.loop_index_of_mem cfg.ExcludedStrings
          (InspectFile.reset r.es filename).FilteredStrings s hmem
        have h2 := excludeImports.loop_keeps_import_index env astFile.Imports _ s h1
        have h3 : GoMap.index (excludeImports.loop env astFile.Imports
          (loadExcludedStrings.loop cfg.ExcludedStrings
            (InspectFile.reset r.es filename).FilteredStrings)) s = "" := hf'.2.1
        rw [h2] at h3
        exact hne' h3
      · intro expr hexpr re hre
        have h3 := (filter.regexps_eq_false env _ s).1 hf'.2.2 (some re) (by
          show some re ∈ (InspectFile.reset r.es filename).FilteredRegexps ++
            cfg.ExcludedRegexps.map fun e => (env.Compile e).toOption
          apply List.mem_append_right
          rw [List.mem_map]
          exact ⟨expr, hexpr, by rw [hre]; rfl⟩)
        obtain ⟨re', h4, h5⟩ := h3
        cases h4
        exact h5
    · intro astFile' fset' hp'
      rw [hp] at hp'
      cases hp'
      exact hne.2.2.2

theorem GoMap.mem_set {V : Type} (m : GoMap V) (k : String) (v : V) (e : String × V)
    (h : e ∈ m.set k v) : e = (k, v) ∨ e ∈ m := by
  induction m with
  | nil => simpa [GoMap.set] using h
  | cons p m ih =>
    obtain ⟨a, b⟩ := p
    by_cases hak : a = k
    · simp only [GoMap.set, hak, if_true, List.mem_cons] at h
      rcases h with h | h
      · exact Or.inl h
      · exact Or.inr (List.mem_cons_of_mem _ h)
    · simp only [GoMap.set, hak, if_false, List.mem_cons] at h
      rcases h with h | h
      · exact Or.inr (by rw [h]; exact List.mem_cons_self _ _)
      · rcases ih h with h' | h'
        · exact Or.inl h'
        · exact Or.inr (List.mem_cons_of_mem _ h')

theorem walk_values (env : Env) (fset : FileSet) (nodes : List Node) (es : ExtractStrings)
    (h : ∀ e ∈ es.ExtractedStrings, e.2.Value = e.1) :
    ∀ e ∈ (extractString.walk env fset nodes es).2.ExtractedStrings, e.2.Value = e.1 := by
  induction nodes generalizing es with
  | nil => exact h
  | cons n rest ih =>
    cases n with
    | other cs => simp only [extractString.walk, visit_other]; exact ih es h
    | BasicLit x0 =>
      simp only [extractString.walk, visit_basicLit]
      by_cases hc : candidate env x0 = true
      · simp only [if_pos hc]
        cases hf : filter env es (unquoted env x0.Value) with
        | none => exact h
        | some b =>
          cases b with
          | true => exact ih es h
          | false =>
            apply ih
            intro e he
            rcases GoMap.mem_set _ _ _ _ he with h1 | h1
            · rw [h1]; rfl
            · exact h e h1
      · simp only [if_neg hc]
        exact ih es h

/-- C3. When an accepted value occurs several times in a file, `extractString` returns with
exactly one record for it, and that record carries the position of the occurrence visited
last: if the nodes visited are `pre`, then the token `x`, then `post`, where `x` is accepted
and no string token of `post` has the value of `x` (`pre` holds the earlier occurrences), the
value of `x` is the key of one entry, every record is filed under its own value, and the
record of `x` has the file name, offset, line and column of `x`. -/
theorem duplicate_keeps_last_position (env : Env) (es : ExtractStrings) (f : File)
    (fset : FileSet) (pre post : List Node) (x : BasicLit)
    (hempty : es.ExtractedStrings = [])
    (hsplit : f.root.preorder = pre ++ Node.BasicLit x :: post)
    (hacc : Accepts env es x (unquoted env x.Value))
    (hlast : ∀ y, Node.BasicLit y ∈ post → y.Kind = Token.STRING →
      unquoted env y.Value ≠ unquoted env x.Value) :
    (extractString env es f fset).1 = .returned none ∧
    (extractString env es f fset).2.ExtractedStrings.keys.count (unquoted env x.Value) = 1 ∧
    (∀ e ∈ (extractString env es f fset).2.ExtractedStrings, e.2.Value = e.1) ∧
    (extractString env es f fset).2.ExtractedStrings.get? (unquoted env x.Value) =
      some { Value := unquoted env x.Value
             Filename := (fset.Position x.ValuePos).Filename
             Offset := (fset.Position x.ValuePos).Offset
             Line := (fset.Position x.ValuePos).Line
             Column := (fset.Position x.ValuePos).Column } := by
  have hnil : none ∉ es.FilteredRegexps := fun hn =>
    filter.regexps_ne_false env _ _ hn ((filter_eq_false env es _).1 hacc.2.2.2.2).2.2
  have hget : (extractString env es f fset).2.ExtractedStrings.get? (unquoted env x.Value) =
      some (recordOf env fset x) := by
    unfold extractString
    rw [hsplit, walk_append]
    have hret := walk_returns env fset pre es hnil
    obtain ⟨m1, hm1⟩ := walk_frame env fset pre es
    cases hw : extractString.walk env fset pre es with
    | mk o es1 =>
      rw [hw] at hret hm1
      simp only at hret hm1
      subst hret
      simp only
      have hfil : filter env es1 (unquoted env x.Value) = some false := by
        rw [hm1]
        exact hacc.2.2.2.2
      have hcand : candidate env x = true :=
        (candidate_iff env x).2 ⟨hacc.2.2.1, hacc.1, hacc.2.2.2.1⟩
      simp only [extractString.walk, visit_basicLit, if_pos hcand, hfil]
      rw [walk_get?_of_absent env fset post _ _ hlast]
      simp [GoMap.get?_set]
  have hnodup : (extractString env es f fset).2.ExtractedStrings.keys.Nodup := by
    unfold extractString
    apply walk_nodup
    rw [hempty]
    exact List.nodup_nil
  refine ⟨walk_returns env fset _ es hnil, ?_, ?_, hget⟩
  · exact List.count_eq_one_of_mem hnodup (GoMap.mem_keys_of_get? _ _ _ hget)
  · unfold extractString
    apply walk_values
    rw [hempty]
    intro e he
    cases he

/-- The keys after `extractString`, started on an empty map, are the values of the accepted
tokens. -/
theorem mem_keys_extractString_iff (env : Env) (es : ExtractStrings) (f : File) (fset : FileSet)
    (s : String) :
    s ∈ (extractString env { es with ExtractedStrings := [] } f fset).2.ExtractedStrings.keys ↔
      ∃ x, HasToken x f.root ∧ x.Kind = Token.STRING ∧
        unquoted env x.Value = s ∧ s ≠ "" ∧ (s ≠ "\t" ∧ s ≠ "\n" ∧ s ≠ " ") ∧
        filter env es s = some false := by
  rw [mem_keys_extractString env _ f fset s rfl]
  have hfc := filter_congr env es { es with ExtractedStrings := [] } rfl rfl s
  simp only [Accepts, hfc, notWhitespace_iff, mem_preorder_iff_hasToken]

theorem excludeImports.loop_index_of_other (env : Env) (l : List ImportSpec)
    (m : GoMap String) (k : String)
    (h : ∀ spec ∈ l, unquoted env spec.Path.Value ≠ k) :
    (excludeImports.loop env l m).index k = m.index k := by
  induction l generalizing m with
  | nil => rfl
  | cons s rest ih =>
    show (excludeImports.loop env rest (m.set (unquoted env s.Path.Value)
      (unquoted env s.Path.Value))).index k = _
    rw [ih _ (fun spec hs => h spec (List.mem_cons_of_mem _ hs)), GoMap.index_set,
      if_neg (h s (List.mem_cons_self _ _))]

theorem eq_singleton_of_nodup (l : List String) (a : String) (hn : l.Nodup)
    (h : ∀ s, s ∈ l ↔ s = a) : l = [a] := by
  cases l with
  | nil => exact absurd ((h a).2 rfl) (List.not_mem_nil a)
  | cons b t =>
    have hb : b = a := (h b).1 (List.mem_cons_self _ _)
    subst hb
    cases t with
    | nil => rfl
    | cons c u =>
      have hc : c = b := (h c).1 (List.mem_cons_of_mem _ (List.mem_cons_self _ _))
      subst hc
      simp at hn

theorem extractString_keys_nodup (env : Env) (es : ExtractStrings) (f : File) (fset : FileSet)
    (hempty : es.ExtractedStrings = []) :
    (extractString env es f fset).2.ExtractedStrings.keys.Nodup := by
  unfold extractString
  apply walk_nodup
  rw [hempty]
  exact List.nodup_nil

theorem unquoted_of_ok (env : Env) (v s : String) (h : env.Unquote v = .ok s) :
    unquoted env v = s := by
  simp [unquoted, h]

/-- The first example, for every file of its shape. -/
theorem example_fmt_hello (env : Env) (es : ExtractStrings) (filename : String) (fset : FileSet)
    (f : File)
    (hstat : env.StatIsNotExist es.options.ExcludedFilenameFlag = true)
    (hfmt : env.Unquote "\"fmt\"" = .ok "fmt")
    (hhello : env.Unquote "\"hello\"" = .ok "hello")
    (hblank : "hello" ∉ env.BLANKS)
    (hsome : f.Imports ≠ [])
    (himp : ∀ spec ∈ f.Imports, spec.Path.Value = "\"fmt\"")
    (htok : ∀ x, HasToken x f.root → x.Kind = Token.STRING →
      x.Value = "\"fmt\"" ∨ x.Value = "\"hello\"")
    (hhas : ∃ x, HasToken x f.root ∧ x.Kind = Token.STRING ∧ x.Value = "\"hello\"") :
    (InspectFile.extract env (InspectFile.reset es filename) f
      fset).2.ExtractedStrings.keys = ["hello"] := by
  rw [extract_of_noConfig env (InspectFile.reset es filename) _ _ hstat]
  have ufmt := unquoted_of_ok env _ _ hfmt
  have uhello := unquoted_of_ok env _ _ hhello
  have hfs : (exclusionStateNoConfig env (InspectFile.reset es filename) f).FilteredStrings =
      excludeImports.loop env f.Imports [] := rfl
  have hrs : (exclusionStateNoConfig env (InspectFile.reset es filename) f).FilteredRegexps =
      [] := rfl
  have i1 : GoMap.index (excludeImports.loop env f.Imports []) "fmt" = "fmt" := by
    cases hi : f.Imports with
    | nil => exact absurd hi hsome
    | cons spec rest =>
      have h1 := excludeImports.loop_index_of_import env f.Imports [] spec
        (by rw [hi]; exact List.mem_cons_self _ _)
      rw [himp spec (by rw [hi]; exact List.mem_cons_self _ _), ufmt, hi] at h1
      exact h1
  have i2 : GoMap.index (excludeImports.loop env f.Imports []) "hello" = "" := by
    rw [excludeImports.loop_index_of_other env f.Imports [] "hello"
      (fun spec hs => by rw [himp spec hs, ufmt]; decide)]
    rfl
  apply eq_singleton_of_nodup _ _ (extractString_keys_nodup env _ f fset rfl)
  intro s
  rw [mem_keys_extractString env _ f fset s rfl]
  constructor
  · rintro ⟨x, hx, hk, hv, hne, hw, hf⟩
    rcases htok x ((mem_preorder_iff_hasToken x f.root).1 hx) hk with h | h
    · rw [h, ufmt] at hv
      subst hv
      have := ((filter_eq_false env _ "fmt").1 hf).2.1
      rw [hfs, i1] at this
      exact absurd this (by decide)
    · rw [h, uhello] at hv
      exact hv.symm
  · rintro rfl
    obtain ⟨x, hx, hk, hv⟩ := hhas
    refine ⟨x, (mem_preorder_iff_hasToken x f.root).2 hx, hk, by rw [hv, uhello], by decide,
      by decide, ?_⟩
    rw [filter_eq_false, hfs, hrs]
    exact ⟨hblank, i2, rfl⟩

/-- The second example, for every file of its shape. -/
theorem example_debug_ready (env : Env) (es : ExtractStrings) (filename : String)
    (fset : FileSet) (f : File) (content : String) (re : Regexp)
    (hstat : env.StatIsNotExist es.options.ExcludedFilenameFlag = false)
    (hread : env.ReadFile es.options.ExcludedFilenameFlag = .ok content)
    (hjson : env.Unmarshal content =
      .ok { ExcludedStrings := [], ExcludedRegexps := ["^DEBUG"] })
    (hre : env.Compile "^DEBUG" = .ok re)
    (hm1 : env.MatchString re "DEBUG: start" = true)
    (hm2 : env.MatchString re "ready" = false)
    (hd : env.Unquote "\"DEBUG: start\"" = .ok "DEBUG: start")
    (hr : env.Unquote "\"ready\"" = .ok "ready")
    (hblank : "ready" ∉ env.BLANKS)
    (himp : ∀ spec ∈ f.Imports, unquoted env spec.Path.Value ≠ "ready")
    (htok : ∀ x, HasToken x f.root → x.Kind = Token.STRING →
      x.Value = "\"DEBUG: start\"" ∨ x.Value = "\"ready\"")
    (hhas : ∃ x, HasToken x f.root ∧ x.Kind = Token.STRING ∧ x.Value = "\"ready\"") :
    (InspectFile.extract env (InspectFile.reset es filename) f
      fset).2.ExtractedStrings.keys = ["ready"] := by
  rw [extract_of_config env (InspectFile.reset es filename) _ _ content _ hstat hread hjson]
  have ud := unquoted_of_ok env _ _ hd
  have ur := unquoted_of_ok env _ _ hr
  have hfs : (exclusionState env (InspectFile.reset es filename)
      { ExcludedStrings := [], ExcludedRegexps := ["^DEBUG"] } f).FilteredStrings =
      excludeImports.loop env f.Imports [] := rfl
  have hrs : (exclusionState env (InspectFile.reset es filename)
      { ExcludedStrings := [], ExcludedRegexps := ["^DEBUG"] } f).FilteredRegexps =
      [some re] := by
    simp [exclusionState, InspectFile.reset, setFilename, setI18nFilename, setPoFilename, hre,
      Except.toOption]
  have i2 : GoMap.index (excludeImports.loop env f.Imports []) "ready" = "" := by
    rw [excludeImports.loop_index_of_other env f.Imports [] "ready" himp]
    rfl
  apply eq_singleton_of_nodup _ _ (extractString_keys_nodup env _ f fset rfl)
  intro s
  rw [mem_keys_extractString env _ f fset s rfl]
  constructor
  · rintro ⟨x, hx, hk, hv, hne, hw, hf⟩
    rcases htok x ((mem_preorder_iff_hasToken x f.root).1 hx) hk with h | h
    · rw [h, ud] at hv
      subst hv
      have := ((filter_eq_false env _ "DEBUG: start").1 hf).2.2
      rw [hrs] at this
      simp [filter.regexps, hm1] at this
    · rw [h, ur] at hv
      exact hv.symm
  · rintro rfl
    obtain ⟨x, hx, hk, hv⟩ := hhas
    refine ⟨x, (mem_preorder_iff_hasToken x f.root).2 hx, hk, by rw [hv, ur], by decide,
      by decide, ?_⟩
    rw [filter_eq_false, hfs, hrs]
    refine ⟨hblank, i2, ?_⟩
    simp [filter.regexps, hm2]

/-- C2. The extracted set is the set of accepted literals: a string is a key of
`ExtractedStrings` after `extractString` exactly when a STRING token of the tree unquotes to it,
it is not empty, not a lone tab, newline or space, and `filter` returns false for it.  With no
exclusion config, a file that imports `"fmt"` and whose string literals are `"fmt"` and
`"hello"` yields the keys `hello`; with the config `excludedRegexps: ["^DEBUG"]`, a file whose
string literals are `"DEBUG: start"` and `"ready"` yields the keys `ready` (the library
unquoting these tokens and matching `^DEBUG` as Go does, and neither `hello` nor `ready` being
a reserved blank form or, in the second file, an import path). -/
theorem extracted_set_is_accepted_set (env : Env) (es : ExtractStrings) :
    (∀ (f : File) (fset : FileSet) (s : String),
      s ∈ (extractString env { es with ExtractedStrings := [] } f fset).2.ExtractedStrings.keys ↔
        ∃ x, HasToken x f.root ∧ x.Kind = Token.STRING ∧
          unquoted env x.Value = s ∧ s ≠ "" ∧ (s ≠ "\t" ∧ s ≠ "\n" ∧ s ≠ " ") ∧
          filter env es s = some false) ∧
    (∀ (filename : String) (fset : FileSet) (f : File),
      env.StatIsNotExist es.options.ExcludedFilenameFlag = true →
      env.Unquote "\"fmt\"" = .ok "fmt" →
      env.Unquote "\"hello\"" = .ok "hello" →
      "hello" ∉ env.BLANKS →
      f.Imports ≠ [] →
      (∀ spec ∈ f.Imports, spec.Path.Value = "\"fmt\"") →
      (∀ x, HasToken x f.root → x.Kind = Token.STRING →
        x.Value = "\"fmt\"" ∨ x.Value = "\"hello\"") →
      (∃ x, HasToken x f.root ∧ x.Kind = Token.STRING ∧ x.Value = "\"hello\"") →
      (InspectFile.extract env (InspectFile.reset es filename) f
        fset).2.ExtractedStrings.keys = ["hello"]) ∧
    (∀ (filename : String) (fset : FileSet) (f : File) (content : String) (re : Regexp),
      env.StatIsNotExist es.options.ExcludedFilenameFlag = false →
      env.ReadFile es.options.ExcludedFilenameFlag = .ok content →
      env.Unmarshal content = .ok { ExcludedStrings := [], ExcludedRegexps := ["^DEBUG"] } →
      env.Compile "^DEBUG" = .ok re →
      env.MatchString re "DEBUG: start" = true →
      env.MatchString re "ready" = false →
      env.Unquote "\"DEBUG: start\"" = .ok "DEBUG: start" →
      env.Unquote "\"ready\"" = .ok "ready" →
      "ready" ∉ env.BLANKS →
      (∀ spec ∈ f.Imports, unquoted env spec.Path.Value ≠ "ready") →
      (∀ x, HasToken x f.root → x.Kind = Token.STRING →
        x.Value = "\"DEBUG: start\"" ∨ x.Value = "\"ready\"") →
      (∃ x, HasToken x f.root ∧ x.Kind = Token.STRING ∧ x.Value = "\"ready\"") →
      (InspectFile.extract env (InspectFile.reset es filename) f
        fset).2.ExtractedStrings.keys = ["ready"]) :=
  ⟨mem_keys_extractString_iff env es,
   fun filename fset f h1 h2 h3 h4 h5 h6 h7 h8 =>
     example_fmt_hello env es filename fset f h1 h2 h3 h4 h5 h6 h7 h8,
   fun filename fset f content re h1 h2 h3 h4 h5 h6 h7 h8 h9 h10 h11 h12 =>
     example_debug_ready env es filename fset f content re h1 h2 h3 h4 h5 h6 h7 h8 h9 h10 h11
       h12⟩

theorem reset_ignoreRegexp (es : ExtractStrings) (filename : String) :
    (InspectFile.reset es filename).IgnoreRegexp = es.IgnoreRegexp := rfl

/-- With a config that is read and fails to parse, `InspectFile` stops at `loadExcludedStrings`
or before it: nothing is extracted, counted or written. -/
theorem InspectFile_of_malformed (env : Env) (filename : String) (r : Run) (content : String)
    (err : Error)
    (hstat : env.StatIsNotExist r.es.options.ExcludedFilenameFlag = false)
    (hread : env.ReadFile r.es.options.ExcludedFilenameFlag = .ok content)
    (hjson : env.Unmarshal content = .error err)
    (hinfo : (env.GetAbsFileInfo (InspectFile.absFilePath env filename)).1 ≠ none) :
    ∃ o, InspectFile env filename r =
      (.returned o, InspectFile.entered r filename) := by
  unfold InspectFile
  simp only
  split
  · next h => exact absurd h hinfo
  · split
    · exact ⟨none, rfl⟩
    · split
      · next e _ => exact ⟨some e, rfl⟩
      · next astFile fset _ =>
        rw [extract_of_malformed env (InspectFile.reset r.es filename) astFile fset content err
          hstat hread hjson]
        exact ⟨some err, rfl⟩

theorem InspectFile_of_malformed_parsed (env : Env) (filename : String) (r : Run)
    (content : String) (err : Error) (fileInfo : FileInfo) (astFile : File) (fset : FileSet)
    (hstat : env.StatIsNotExist r.es.options.ExcludedFilenameFlag = false)
    (hread : env.ReadFile r.es.options.ExcludedFilenameFlag = .ok content)
    (hjson : env.Unmarshal content = .error err)
    (hinfo : (env.GetAbsFileInfo (InspectFile.absFilePath env filename)).1 = some fileInfo)
    (hvisible : HasPrefix fileInfo.Name "." = false)
    (hparse : env.ParseFile (InspectFile.absFilePath env filename) = .ok (astFile, fset)) :
    InspectFile env filename r =
      (.returned (some err), InspectFile.entered r filename) := by
  unfold InspectFile
  simp only [hinfo, hvisible, hparse]
  rw [extract_of_malformed env (InspectFile.reset r.es filename) astFile fset content err
    hstat hread hjson]
  rfl





theorem Continues.refl (r : Run) : Continues r r := ⟨rfl, rfl, fun _ h => h⟩

theorem Continues.trans {a b c : Run} (h1 : Continues a b) (h2 : Continues b c) :
    Continues a c :=
  ⟨h2.1.trans h1.1, h2.2.1.trans h1.2.1, fun _ h => h2.2.2 (h1.2.2 h)⟩

theorem files_of_malformed (env : Env) (opts : Options) (ignore : Option Regexp)
    (content : String) (err : Error)
    (hstat : env.StatIsNotExist opts.ExcludedFilenameFlag = false)
    (hread : env.ReadFile opts.ExcludedFilenameFlag = .ok content)
    (hjson : env.Unmarshal content = .error err)
    (files : List String)
    (hinfo : ∀ f ∈ files, Inspected env ignore f →
      (env.GetAbsFileInfo (InspectFile.absFilePath env f)).1 ≠ none)
    (r : Run) (hr : r.es.options = opts) (hig : r.es.IgnoreRegexp = ignore) :
    ∃ r', InspectDir.files env files r = (.returned none, r') ∧ Continues r r' ∧
      ∀ f ∈ files, Inspected env ignore f → Event.InspectFile f ∈ r'.trace := by
  induction files generalizing r with
  | nil => exact ⟨r, rfl, Continues.refl r, fun f hf => by cases hf⟩
  | cons fileName rest ih =>
    have hrest : ∀ f ∈ rest, Inspected env ignore f →
        (env.GetAbsFileInfo (InspectFile.absFilePath env f)).1 ≠ none :=
      fun f hf => hinfo f (List.mem_cons_of_mem _ hf)
    unfold InspectDir.files
    simp only
    split
    · next hign =>
      obtain ⟨r', h1, h2, h3⟩ := ih hrest r hr hig
      refine ⟨r', h1, h2, ?_⟩
      intro f hf hins
      rcases List.mem_cons.1 hf with hf | hf
      · subst hf
        exfalso
        cases hre : r.es.IgnoreRegexp with
        | none => simp [hre] at hign
        | some re =>
          have := hins.1 re (by rw [← hig, hre])
          simp [hre, this] at hign
      · exact h3 f hf hins
    · next hign =>
      split
      · next hsuf =>
        have hins0 : Inspected env ignore fileName := by
          refine ⟨?_, hsuf⟩
          intro re hre
          rw [← hig] at hre
          simp only [hre] at hign
          simpa using hign
        obtain ⟨o, hfile⟩ := InspectFile_of_malformed env fileName r content err
          (by rw [hr]; exact hstat) (by rw [hr]; exact hread) hjson
          (hinfo fileName (List.mem_cons_self _ _) hins0)
        rw [hfile]
        simp only
        have hc : Continues r (InspectFile.entered r fileName) :=
          ⟨rfl, rfl, fun _ h => List.mem_append_left _ h⟩
        obtain ⟨r', h1, h2, h3⟩ := ih hrest (InspectFile.entered r fileName)
          (by rw [← hr]; rfl) (by rw [← hig]; rfl)
        refine ⟨r', h1, hc.trans h2, ?_⟩
        intro f hf hins
        rcases List.mem_cons.1 hf with hf | hf
        · subst hf
          exact h2.2.2 (by simp [InspectFile.entered])
        · exact h3 f hf hins
      · next hsuf =>
        obtain ⟨r', h1, h2, h3⟩ := ih hrest r hr hig
        refine ⟨r', h1, h2, ?_⟩
        intro f hf hins
        rcases List.mem_cons.1 hf with hf | hf
        · subst hf
          exact absurd hins.2 hsuf
        · exact h3 f hf hins

theorem packages_of_malformed (env : Env) (opts : Options) (ignore : Option Regexp)
    (content : String) (err : Error)
    (hstat : env.StatIsNotExist opts.ExcludedFilenameFlag = false)
    (hread : env.ReadFile opts.ExcludedFilenameFlag = .ok content)
    (hjson : env.Unmarshal content = .error err)
    (packages : List (String × Package))
    (hinfo : ∀ f ∈ (packages.map fun pkg => pkg.2.Files).flatten, Inspected env ignore f →
      (env.GetAbsFileInfo (InspectFile.absFilePath env f)).1 ≠ none)
    (r : Run) (hr : r.es.options = opts) (hig : r.es.IgnoreRegexp = ignore) :
    ∃ r', InspectDir.packages env packages r = (.returned none, r') ∧ Continues r r' ∧
      ∀ pkg ∈ packages, ∀ f ∈ pkg.2.Files, Inspected env ignore f →
        Event.InspectFile f ∈ r'.trace := by
  induction packages generalizing r with
  | nil => exact ⟨r, rfl, Continues.refl r, fun p hp => by cases hp⟩
  | cons p rest ih =>
    obtain ⟨k, pkg⟩ := p
    simp only [List.map_cons, List.flatten_cons, List.mem_append] at hinfo
    unfold InspectDir.packages
    obtain ⟨r1, h1, h2, h3⟩ := files_of_malformed env opts ignore content err hstat hread hjson
      pkg.Files (fun f hf => hinfo f (Or.inl hf)) r hr hig
    rw [h1]
    simp only
    obtain ⟨r2, h4, h5, h6⟩ := ih (fun f hf => hinfo f (Or.inr hf)) r1
      (by rw [h2.1]; exact hr) (by rw [h2.2.1]; exact hig)
    refine ⟨r2, h4, h2.trans h5, ?_⟩
    intro q hq f hf hins
    rcases List.mem_cons.1 hq with hq | hq
    · subst hq
      exact h5.2.2 (h3 f hf hins)
    · exact h6 q hq f hf hins

mutual
theorem InspectDir_of_malformed (env : Env) (opts : Options) (ignore : Option Regexp)
    (content : String) (err : Error)
    (hstat : env.StatIsNotExist opts.ExcludedFilenameFlag = false)
    (hread : env.ReadFile opts.ExcludedFilenameFlag = .ok content)
    (hjson : env.Unmarshal content = .error err) (recursive : Bool) :
    ∀ (t : DirTree) (dirName : String) (r : Run),
      (∀ f ∈ DirTree.files recursive t, Inspected env ignore f →
        (env.GetAbsFileInfo (InspectFile.absFilePath env f)).1 ≠ none) →
      r.es.options = opts → r.es.IgnoreRegexp = ignore →
      ∃ o r', InspectDir env dirName recursive t r = (.returned o, r') ∧ Continues r r'
  | .mk packages parseErr entries, dirName, r, hinfo, hr, hig => by
    unfold InspectDir
    simp only
    cases parseErr with
    | some e => exact ⟨some e, _, rfl, rfl, rfl, fun _ h => h⟩
    | none =>
      simp only
      simp only [DirTree.files, List.mem_append] at hinfo
      have hc0 : Continues r { r with es := { r.es with TotalStringsDir := 0 } } :=
        ⟨rfl, rfl, fun _ h => h⟩
      obtain ⟨r1, h1, h2, _⟩ := packages_of_malformed env opts ignore content err hstat hread
        hjson packages (fun f hf => hinfo f (Or.inl hf))
        { r with es := { r.es with TotalStringsDir := 0 } } hr hig
      rw [h1]
      simp only
      cases recursive with
      | false => exact ⟨none, r1, rfl, hc0.trans h2⟩
      | true =>
        simp only [if_true]
        obtain ⟨r2, h3, h4⟩ := InspectDir.entries_of_malformed env opts ignore content err hstat
          hread hjson true entries dirName r1
          (fun f hf => hinfo f (Or.inr (by simpa using hf)))
          (by rw [h2.1]; exact hr) (by rw [h2.2.1]; exact hig)
        exact ⟨none, r2, h3, (hc0.trans h2).trans h4⟩
theorem InspectDir.entries_of_malformed (env : Env) (opts : Options) (ignore : Option Regexp)
    (content : String) (err : Error)
    (hstat : env.StatIsNotExist opts.ExcludedFilenameFlag = false)
    (hread : env.ReadFile opts.ExcludedFilenameFlag = .ok content)
    (hjson : env.Unmarshal content = .error err) (recursive : Bool) :
    ∀ (l : List (FileInfo × DirTree)) (dirName : String) (r : Run),
      (∀ f ∈ DirTree.filesBelow recursive l, Inspected env ignore f →
        (env.GetAbsFileInfo (InspectFile.absFilePath env f)).1 ≠ none) →
      r.es.options = opts → r.es.IgnoreRegexp = ignore →
      ∃ r', InspectDir.entries env dirName recursive l r = (.returned none, r') ∧ Continues r r'
  | [], dirName, r, _, _, _ => ⟨r, by unfold InspectDir.entries; rfl, Continues.refl r⟩
  | (fileInfo, sub) :: rest, dirName, r, hinfo, hr, hig => by
    simp only [DirTree.filesBelow, List.mem_append] at hinfo
    unfold InspectDir.entries
    split
    · next hdir =>
      obtain ⟨o, r1, h1, h2⟩ := InspectDir_of_malformed env opts ignore content err hstat hread
        hjson recursive sub (env.Join [dirName, fileInfo.Name]) r
        (fun f hf => hinfo f (Or.inl (by rw [if_pos hdir]; exact hf))) hr hig
      rw [h1]
      simp only
      obtain ⟨r2, h3, h4⟩ := InspectDir.entries_of_malformed env opts ignore content err hstat
        hread hjson recursive rest dirName r1 (fun f hf => hinfo f (Or.inr hf))
        (by rw [h2.1]; exact hr) (by rw [h2.2.1]; exact hig)
      exact ⟨r2, h3, h2.trans h4⟩
    · exact InspectDir.entries_of_malformed env opts ignore content err hstat hread hjson
        recursive rest dirName r (fun f hf => hinfo f (Or.inr hf)) hr hig
end

theorem InspectDir_files_of_malformed (env : Env) (content : String) (err : Error)
    (dirName : String) (recursive : Bool) (packages : List (String × Package))
    (entries : List (FileInfo × DirTree)) (r : Run)
    (hstat : env.StatIsNotExist r.es.options.ExcludedFilenameFlag = false)
    (hread : env.ReadFile r.es.options.ExcludedFilenameFlag = .ok content)
    (hjson : env.Unmarshal content = .error err)
    (hinfo : ∀ f ∈ DirTree.files recursive (.mk packages none entries),
      Inspected env r.es.IgnoreRegexp f →
      (env.GetAbsFileInfo (InspectFile.absFilePath env f)).1 ≠ none) :
    (InspectDir env dirName recursive (.mk packages none entries) r).1 = .returned none ∧
    ∀ pkg ∈ packages, ∀ f ∈ pkg.2.Files, Inspected env r.es.IgnoreRegexp f →
      Event.InspectFile f ∈ (InspectDir env dirName recursive (.mk packages none
        entries) r).2.trace := by
  simp only [DirTree.files, List.mem_append] at hinfo
  unfold InspectDir
  simp only
  obtain ⟨r1, h1, h2, h3⟩ := packages_of_malformed env r.es.options r.es.IgnoreRegexp content
    err hstat hread hjson packages (fun f hf => hinfo f (Or.inl hf))
    { r with es := { r.es with TotalStringsDir := 0 } } rfl rfl
  rw [h1]
  simp only
  cases recursive with
  | false => exact ⟨rfl, h3⟩
  | true =>
    simp only [if_true]
    obtain ⟨r2, h4, h5⟩ := InspectDir.entries_of_malformed env r.es.options r.es.IgnoreRegexp
      content err hstat hread hjson true entries dirName r1
      (fun f hf => hinfo f (Or.inr (by simpa using hf))) (by rw [h2.1]) (by rw [h2.2.1])
    rw [h4]
    exact ⟨rfl, fun pkg hp f hf hi => h5.2.2 (h3 pkg hp f hf hi)⟩

/-- C6, as amended. With an exclusion config that exists and is not valid JSON
(`json.Unmarshal` fails with `err`): `InspectFile` on a file whose file info is obtained, whose
base name does not start with a dot and which parses returns `err` before extracting anything
(`ExtractedStrings` is empty, the three counters are unchanged and nothing is written); and
`InspectDir` on a directory that `parser.ParseDir` parsed without error, where the file info
of every file it hands to `InspectFile` is obtained, calls `InspectFile` on every file of the
directory that ends in `.go` and is not matched by the ignore regexp, and returns nil. -/
theorem malformed_config_fails_file_not_dir (env : Env) (content : String) (err : Error)
    (hjson : env.Unmarshal content = .error err) :
    (∀ (filename : String) (r : Run) (fileInfo : FileInfo) (astFile : File) (fset : FileSet),
      env.StatIsNotExist r.es.options.ExcludedFilenameFlag = false →
      env.ReadFile r.es.options.ExcludedFilenameFlag = .ok content →
      (env.GetAbsFileInfo (InspectFile.absFilePath env filename)).1 = some fileInfo →
      HasPrefix fileInfo.Name "." = false →
      env.ParseFile (InspectFile.absFilePath env filename) = .ok (astFile, fset) →
      (InspectFile env filename r).1 = .returned (some err) ∧
      (InspectFile env filename r).2.es.ExtractedStrings = [] ∧
      (InspectFile env filename r).2.es.TotalStrings = r.es.TotalStrings ∧
      (InspectFile env filename r).2.es.TotalStringsDir = r.es.TotalStringsDir ∧
      (InspectFile env filename r).2.es.TotalFiles = r.es.TotalFiles ∧
      (InspectFile env filename r).2.trace = r.trace ++ [Event.InspectFile filename]) ∧
    (∀ (dirName : String) (recursive : Bool) (packages : List (String × Package))
      (entries : List (FileInfo × DirTree)) (r : Run),
      env.StatIsNotExist r.es.options.ExcludedFilenameFlag = false →
      env.ReadFile r.es.options.ExcludedFilenameFlag = .ok content →
      (∀ f ∈ DirTree.files recursive (.mk packages none entries),
        (∀ re, r.es.IgnoreRegexp = some re → env.MatchString re f = false) →
        HasSuffix f ".go" = true →
        (env.GetAbsFileInfo (InspectFile.absFilePath env f)).1 ≠ none) →
      (InspectDir env dirName recursive (.mk packages none entries) r).1 = .returned none ∧
      ∀ pkg ∈ packages, ∀ f ∈ pkg.2.Files,
        (∀ re, r.es.IgnoreRegexp = some re → env.MatchString re f = false) →
        HasSuffix f ".go" = true →
        Event.InspectFile f ∈
          (InspectDir env dirName recursive (.mk packages none entries) r).2.trace) := by
  constructor
  · intro filename r fileInfo astFile fset hstat hread hinfo hvis hparse
    rw [InspectFile_of_malformed_parsed env filename r content err fileInfo astFile fset hstat
      hread hjson hinfo hvis hparse]
    exact ⟨rfl, rfl, rfl, rfl, rfl, rfl⟩
  · intro dirName recursive packages entries r hstat hread hinfo
    have h := InspectDir_files_of_malformed env content err dirName recursive packages entries r
      hstat hread hjson (fun f hf hi => hinfo f hf hi.1 hi.2)
    exact ⟨h.1, fun pkg hp f hf h1 h2 => h.2 pkg hp f hf ⟨h1, h2⟩⟩

theorem extract_frame (env : Env) (es : ExtractStrings) (astFile : File) (fset : FileSet) :
    ∃ m fs rs, (InspectFile.extract env es astFile fset).2 =
      { es with ExtractedStrings := m, FilteredStrings := fs, FilteredRegexps := rs } := by
  unfold InspectFile.extract
  obtain ⟨fs, hfs⟩ := loadExcludedStrings_frame env es
  cases h1 : loadExcludedStrings env es with
  | mk o1 es1 =>
    rw [h1] at hfs
    simp only at hfs
    subst hfs
    cases o1 with
    | some err => exact ⟨_, _, _, rfl⟩
    | none =>
      simp only
      obtain ⟨rs, hrs⟩ := loadExcludedRegexps_frame env { es with FilteredStrings := fs }
      cases h2 : loadExcludedRegexps env { es with FilteredStrings := fs } with
      | mk o2 es2 =>
        rw [h2] at hrs
        simp only at hrs
        subst hrs
        cases o2 with
        | some err => exact ⟨_, _, _, rfl⟩
        | none =>
          simp only [extractString]
          obtain ⟨m, hm⟩ := walk_frame env fset astFile.root.preorder
            (excludeImports env { es with FilteredStrings := fs, FilteredRegexps := rs } astFile)
          exact ⟨m, _, _, hm⟩

theorem saveExtractedStrings_createDirs (env : Env) (d d' : String) (r : Run)
    (h : Event.CreateOutputDirsIfNeeded d' ∈ (saveExtractedStrings env d r).2.trace) :
    Event.CreateOutputDirsIfNeeded d' ∈ r.trace ∨ d' = d := by
  unfold saveExtractedStrings at h
  simp only at h
  split at h
  · simpa using h
  · split at h
    · split at h
      · simpa using h
      · simpa using h
    · simpa using h

theorem save_createDirs (env : Env) (d d' : String) (r : Run)
    (h : Event.CreateOutputDirsIfNeeded d' ∈ (InspectFile.save env d r).2.trace) :
    Event.CreateOutputDirsIfNeeded d' ∈ r.trace ∨ d' = d := by
  unfold InspectFile.save at h
  have hs := saveExtractedStrings_createDirs env d d' r
  split at h
  · next err r' heq => rw [heq] at hs; exact hs h
  · next r' heq =>
    rw [heq] at hs
    simp only at hs h
    split at h
    · exact hs (by simpa using h)
    · split at h
      · split at h <;> exact hs (by simpa using h)
      · exact hs (by simpa using h)

theorem outputDirname_default (env : Env) (es : ExtractStrings) (absFilePath : String)
    (hi : es.options.OutputMatchImportFlag = false)
    (hp : es.options.OutputMatchPackageFlag = false) :
    InspectFile.outputDirname env es absFilePath =
      if es.options.OutputDirFlag ≠ "" then (es.OutputDirname, none)
      else
        match env.FindFilePath absFilePath with
        | .error err => (es.OutputDirname, some err)
        | .ok dir => (dir, none) := by
  unfold InspectFile.outputDirname
  by_cases h : es.options.OutputDirFlag = ""
  · simp only [h, ne_eq, not_true_eq_false, if_false]
  · simp [h, hi, hp]

/-- The directories `InspectFile` hands to `saveExtractedStrings`. -/
theorem InspectFile_createDirs (env : Env) (filename : String) (r : Run) (d : String)
    (h : Event.CreateOutputDirsIfNeeded d ∈ (InspectFile env filename r).2.trace) :
    Event.CreateOutputDirsIfNeeded d ∈ r.trace ∨
      ∃ es, es.options = r.es.options ∧ es.OutputDirname = r.es.OutputDirname ∧
        InspectFile.outputDirname env es (InspectFile.absFilePath env filename) = (d, none) := by
  unfold InspectFile at h
  simp only at h
  split at h
  · exact Or.inl (by simpa using h)
  · split at h
    · exact Or.inl (by simpa using h)
    · split at h
      · exact Or.inl (by simpa using h)
      · next astFile fset hparse =>
        obtain ⟨m, fs, rs, hfr⟩ := extract_frame env (InspectFile.reset r.es filename) astFile fset
        split at h
        · exact Or.inl (by simpa using h)
        · exact Or.inl (by simpa using h)
        · next es' heq =>
          rw [heq] at hfr
          simp only at hfr h
          split at h
          · exact Or.inl (by simpa using h)
          · next dir hout =>
            rcases save_createDirs env _ _ _ h with h' | h'
            · exact Or.inl (by simpa using h')
            · refine Or.inr ⟨InspectFile.count es', ?_, ?_, ?_⟩
              · rw [hfr]; rfl
              · rw [hfr]; rfl
              · rw [h']; exact hout

/-- C7, as amended. With neither the output-match-import nor the output-match-package flag
set, the directory `InspectFile` hands to `saveExtractedStrings` is the directory containing
the source file when the output-directory option is empty, and `es.OutputDirname` when it is
not. -/
theorem default_destination (env : Env) (filename : String) (r : Run) (d : String)
    (hi : r.es.options.OutputMatchImportFlag = false)
    (hp : r.es.options.OutputMatchPackageFlag = false)
    (hnew : Event.CreateOutputDirsIfNeeded d ∉ r.trace)
    (hd : Event.CreateOutputDirsIfNeeded d ∈ (InspectFile env filename r).2.trace) :
    (r.es.options.OutputDirFlag = "" ∧
        env.FindFilePath (InspectFile.absFilePath env filename) = .ok d) ∨
      (r.es.options.OutputDirFlag ≠ "" ∧ d = r.es.OutputDirname) := by
  rcases InspectFile_createDirs env filename r d hd with h | ⟨es, ho, hod, hout⟩
  · exact absurd h hnew
  · rw [outputDirname_default env es _ (by rw [ho]; exact hi) (by rw [ho]; exact hp)] at hout
    rw [ho, hod] at hout
    by_cases hflag : r.es.options.OutputDirFlag = ""
    · left
      refine ⟨hflag, ?_⟩
      simp only [hflag, ne_eq, not_true_eq_false, if_false] at hout
      split at hout
      · cases hout
      · next dir hf =>
        cases hout
        exact hf
    · right
      refine ⟨hflag, ?_⟩
      simp only [ne_eq, hflag, not_false_eq_true, if_true] at hout
      cases hout
      rfl

theorem Split.go_head (sep : List Char) (s cur : List Char) :
    (Split.go sep 0 s cur).head? = some (cur.reverse ++ cutAt sep s) := by
  induction s generalizing cur with
  | nil => simp [Split.go, cutAt]
  | cons c cs ih =>
    unfold Split.go cutAt
    split
    · simp
    · rw [ih]
      simp

theorem Split_head (s sep : String) (h : sep.data ≠ []) :
    (Split s sep).headD "" = String.mk (cutAt sep.data s.data) := by
  unfold Split
  rw [if_neg h]
  have := Split.go_head sep.data s.data []
  cases hgo : Split.go sep.data 0 s.data [] with
  | nil => rw [hgo] at this; cases this
  | cons a l =>
    rw [hgo] at this
    simp only [List.head?_cons, Option.some.injEq, List.reverse_nil, List.nil_append] at this
    simp [this]

theorem cutAt_append_le (sep f : List Char) : cutAt sep (f ++ sep) <+: f := by
  induction f with
  | nil =>
    cases sep with
    | nil => simp [cutAt]
    | cons c cs => simp [cutAt]
  | cons c cs ih =>
    simp only [List.cons_append, cutAt]
    split
    · exact List.nil_prefix
    · exact (List.prefix_cons_inj c).2 ih

theorem cutAt_append_self (sep f : List Char)
    (h : ∀ t, t <:+ f → t ≠ [] → ¬ sep <+: t ++ sep) : cutAt sep (f ++ sep) = f := by
  induction f with
  | nil =>
    cases sep with
    | nil => simp [cutAt]
    | cons c cs => simp [cutAt]
  | cons c cs ih =>
    have h0 := h (c :: cs) (List.suffix_refl _) (by simp)
    simp only [List.cons_append, cutAt]
    rw [if_neg (by simpa [ List.isPrefixOf_iff_prefix] using h0)]
    have ih' := ih (fun t ht hne => h t (ht.trans (List.suffix_cons c cs)) hne)
    exact congrArg (List.cons c) ih'

theorem marker_no_border (k : Nat) (h1 : 1 ≤ k) (h2 : k < 15) :
    ¬ marker.data <+: marker.data.take k ++ marker.data := by
  interval_cases k <;> decide

theorem marker_no_overlap (f t : List Char) (hf : ¬ marker.data <:+: f) (ht : t <:+ f)
    (hne : t ≠ []) : ¬ marker.data <+: t ++ marker.data := by
  intro hpre
  have hlen : marker.data.length = 15 := by decide
  by_cases hl : 15 ≤ t.length
  · have : marker.data <+: t :=
      List.prefix_of_prefix_length_le hpre (List.prefix_append t marker.data) (by omega)
    exact hf (this.isInfix.trans ht.isInfix)
  · have htm : t <+: marker.data :=
      List.prefix_of_prefix_length_le (List.prefix_append t marker.data) hpre (by omega)
    have hk : t = marker.data.take t.length := by
      rw [List.prefix_iff_eq_take] at htm
      exact htm
    have hpos : 1 ≤ t.length := by
      cases t with
      | nil => exact absurd rfl hne
      | cons a b => simp
    apply marker_no_border t.length hpos (by omega)
    rw [← hk]
    exact hpre

theorem InspectFile_filename (env : Env) (filename : String) (r : Run) :
    (InspectFile env filename r).2.es.Filename = filename ++ ".extracted.json" := by
  rcases InspectFile_es env filename r with h | ⟨astFile, fset, _, h | h⟩
  · rw [h]; rfl
  · obtain ⟨m, fs, rs, hf⟩ := extract_frame env (InspectFile.reset r.es filename) astFile fset
    rw [h, hf]; rfl
  · obtain ⟨m, fs, rs, hf⟩ := extract_frame env (InspectFile.reset r.es filename) astFile fset
    rw [h, hf]; rfl

/-- The `Filename` of a record `saveExtractedStrings` collects after `InspectFile`. -/
theorem record_filename_eq_split (env : Env) (filename : String) (r : Run) (info : StringInfo)
    (h : info ∈ saveExtractedStrings.stringInfos env (InspectFile env filename r).2.es) :
    info.Filename = (Split (filename ++ ".extracted.json") ".extracted.json").headD "" := by
  unfold saveExtractedStrings.stringInfos at h
  rw [List.mem_map] at h
  obtain ⟨e, _, he⟩ := h
  rw [← he, InspectFile_filename]

/-- C9, as amended. Every record `saveExtractedStrings` collects has as `Filename` the source
file name as it was passed to `InspectFile`, directory components included, without the
`.extracted.json` that `setFilename` appended: it is a prefix of the name passed, and it is the
whole name passed when that does not contain `.extracted.json`. -/
theorem record_filename_is_source_name (env : Env) (filename : String) (r : Run)
    (info : StringInfo)
    (h : info ∈ saveExtractedStrings.stringInfos env (InspectFile env filename r).2.es) :
    info.Filename.data <+: filename.data ∧
    (¬ ".extracted.json".data <:+: filename.data → info.Filename = filename) := by
  have hname := record_filename_eq_split env filename r info h
  have hcut : info.Filename = String.mk (cutAt marker.data (filename.data ++ marker.data)) := by
    rw [hname, Split_head _ _ (by decide)]
    rfl
  refine ⟨?_, ?_⟩
  · rw [hcut]
    exact cutAt_append_le marker.data filename.data
  · intro hno
    rw [hcut, cutAt_append_self marker.data filename.data
      (fun t ht hne => marker_no_overlap filename.data t hno ht hne)]

theorem World.env_rangeFaithful (w : World) : w.env.RangeFaithful := by
  intro m
  show (if w.reverseRange then m.reverse else m).Perm m
  split
  · exact List.reverse_perm m
  · exact List.Perm.refl m

/-- C1, an instance: with the config `excludedStrings: ["skip"]`, `excludedRegexps: ["^DEBUG"]`
the file with `"DEBUG: start"` and `"ready"` yields the key `ready`, which is not a reserved
blank form. -/
theorem extracted_keys_pass_exclusion_witness :
    "ready" ∈ (InspectFile debugWorld.env "/src/p/main.go"
      (freshRun debugWorld.env plainOptions)).2.es.ExtractedStrings.keys ∧
    ("ready" ≠ "" ∧ "ready" ∉ debugWorld.env.BLANKS ∧
      "ready" ≠ "\t" ∧ "ready" ≠ "\n" ∧ "ready" ≠ " ") :=
  ⟨by decide, (extracted_keys_pass_exclusion debugWorld.env "/src/p/main.go"
    (freshRun debugWorld.env plainOptions) "ready" (by decide)).1⟩

theorem fmtHello_tokens (x : BasicLit) (h : HasToken x fmtHello.root) :
    x.Value = "\"fmt\"" ∨ x.Value = "\"hello\"" := by
  have hx := (mem_preorder_iff_hasToken x fmtHello.root).2 h
  simp only [fmtHello, Node.preorder, Node.preorderList, List.append_nil, List.cons_append,
    List.nil_append, List.mem_cons, Node.BasicLit.injEq, reduceCtorEq, false_or,
    List.mem_singleton, List.not_mem_nil, or_false] at hx
  rcases hx with hx | hx | hx <;> subst hx <;> simp [stringLit]

theorem debugReady_tokens (x : BasicLit) (h : HasToken x debugReady.root) :
    x.Value = "\"DEBUG: start\"" ∨ x.Value = "\"ready\"" := by
  have hx := (mem_preorder_iff_hasToken x debugReady.root).2 h
  simp only [debugReady, Node.preorder, Node.preorderList, List.append_nil, List.cons_append,
    List.nil_append, List.mem_cons, Node.BasicLit.injEq, reduceCtorEq, false_or,
    List.mem_singleton, List.not_mem_nil, or_false] at hx
  rcases hx with hx | hx <;> subst hx <;> simp [stringLit]

/-- C2, an instance: in the worlds of the two examples, where the tokens unquote and `^DEBUG`
matches as in Go, the file with `import "fmt"`, `x := "fmt"`, `y := "hello"` yields the keys
`hello` with no exclusion config, and the file with `"DEBUG: start"` and `"ready"` yields the
keys `ready` with the config `excludedRegexps: ["^DEBUG"]`. -/
theorem extracted_set_is_accepted_set_witness :
    helloWorld.env.StatIsNotExist
      (NewExtractStrings helloWorld.env plainOptions).options.ExcludedFilenameFlag = true ∧
    helloWorld.env.Unquote "\"fmt\"" = .ok "fmt" ∧
    helloWorld.env.Unquote "\"hello\"" = .ok "hello" ∧
    "hello" ∉ helloWorld.env.BLANKS ∧
    HasToken (stringLit 54 "\"hello\"") fmtHello.root ∧
    (InspectFile.extract helloWorld.env
      (InspectFile.reset (NewExtractStrings helloWorld.env plainOptions) "/src/p/main.go")
      fmtHello lineOne).2.ExtractedStrings.keys = ["hello"] ∧
    regexpWorld.env.Compile "^DEBUG" = .ok ⟨"^DEBUG"⟩ ∧
    regexpWorld.env.MatchString ⟨"^DEBUG"⟩ "DEBUG: start" = true ∧
    regexpWorld.env.MatchString ⟨"^DEBUG"⟩ "ready" = false ∧
    HasToken (stringLit 50 "\"ready\"") debugReady.root ∧
    (InspectFile.extract regexpWorld.env
      (InspectFile.reset (NewExtractStrings regexpWorld.env plainOptions) "/src/p/main.go")
      debugReady lineOne).2.ExtractedStrings.keys = ["ready"] :=
  have t1 : HasToken (stringLit 54 "\"hello\"") fmtHello.root :=
    (mem_preorder_iff_hasToken _ _).1 (by
      simp [fmtHello, Node.preorder, Node.preorderList])
  have t2 : HasToken (stringLit 50 "\"ready\"") debugReady.root :=
    (mem_preorder_iff_hasToken _ _).1 (by
      simp [debugReady, Node.preorder, Node.preorderList])
  ⟨by decide, by decide, by decide, by decide, t1,
    (extracted_set_is_accepted_set helloWorld.env
      (NewExtractStrings helloWorld.env plainOptions)).2.1 "/src/p/main.go" lineOne fmtHello
      (by decide) (by decide) (by decide) (by decide) (by decide) (by decide)
      (fun x hx _ => fmtHello_tokens x hx) ⟨_, t1, rfl, rfl⟩,
    by decide, by decide, by decide, t2,
    (extracted_set_is_accepted_set regexpWorld.env
      (NewExtractStrings regexpWorld.env plainOptions)).2.2 "/src/p/main.go" lineOne debugReady
      "config" ⟨"^DEBUG"⟩ (by decide) (by decide) (by decide) (by decide) (by decide)
      (by decide) (by decide) (by decide) (by decide) (by decide)
      (fun x hx _ => debugReady_tokens x hx) ⟨_, t2, rfl, rfl⟩⟩

/-- C3, an instance: in `var a, b, c = "dup", "dup", "one"` the second `"dup"` is accepted and
is the last with its value; the walk returns and the value `dup` has one record. -/
theorem duplicate_keeps_last_position_witness :
    Accepts dupWorld.env (NewExtractStrings dupWorld.env plainOptions) (stringLit 31 "\"dup\"")
      (unquoted dupWorld.env (stringLit 31 "\"dup\"").Value) ∧
    (extractString dupWorld.env (NewExtractStrings dupWorld.env plainOptions) dupFile
      lineOne).1 = .returned none ∧
    (extractString dupWorld.env (NewExtractStrings dupWorld.env plainOptions) dupFile
      lineOne).2.ExtractedStrings.keys.count
        (unquoted dupWorld.env (stringLit 31 "\"dup\"").Value) = 1 :=
  have h := duplicate_keeps_last_position dupWorld.env
    (NewExtractStrings dupWorld.env plainOptions) dupFile lineOne
    (dupFile.root.preorder.take 8) [.BasicLit (stringLit 38 "\"one\"")]
    (stringLit 31 "\"dup\"") rfl rfl (by decide)
    (by
      intro y hy _
      simp only [List.mem_singleton, Node.BasicLit.injEq] at hy
      subst hy
      decide)
  ⟨by decide, h.1, h.2.1⟩

/-- C4, the defect: with the config `excludedRegexps: ["("]`, `loadExcludedRegexps` returns
no error and leaves the nil result of `regexp.Compile` in `FilteredRegexps`; `filter` then
panics on the literal `hello`, and so does `InspectFile` on a file that contains it. -/
theorem uncompilable_regexp_kept_as_nil :
    loadExcludedRegexps badRegexpWorld.env
      (InspectFile.reset (NewExtractStrings badRegexpWorld.env plainOptions) "/src/p/main.go") =
      (none, { InspectFile.reset (NewExtractStrings badRegexpWorld.env plainOptions)
        "/src/p/main.go" with FilteredRegexps := [none] }) ∧
    filter badRegexpWorld.env
      { InspectFile.reset (NewExtractStrings badRegexpWorld.env plainOptions)
        "/src/p/main.go" with FilteredRegexps := [none] } "hello" = none ∧
    (InspectFile badRegexpWorld.env "/src/p/main.go"
      (freshRun badRegexpWorld.env plainOptions)).1 = .panicked := by
  decide

/-- C5, refuted: after extracting from the file with two literals, the records collected under
one iteration order and under the reverse order (each yields every entry once) differ. -/
theorem record_order_depends_on_range :
    twoWorld.env.RangeFaithful ∧ twoWorldReversed.env.RangeFaithful ∧
    saveExtractedStrings.stringInfos twoWorld.env
      (InspectFile twoWorld.env "/src/p/main.go" (freshRun twoWorld.env plainOptions)).2.es ≠
    saveExtractedStrings.stringInfos twoWorldReversed.env
      (InspectFile twoWorld.env "/src/p/main.go" (freshRun twoWorld.env plainOptions)).2.es :=
  ⟨World.env_rangeFaithful _, World.env_rangeFaithful _, by decide⟩

/-- C5, as amended. For a fixed `ExtractedStrings` map the records `saveExtractedStrings`
marshals are determined up to their order: under any two iteration orders that yield every
entry once, the two sequences are permutations of each other, and they are equal when the map
has at most one entry. -/
theorem records_determined_up_to_order (env1 env2 : Env) (es : ExtractStrings)
    (h1 : env1.RangeFaithful) (h2 : env2.RangeFaithful) :
    (saveExtractedStrings.stringInfos env1 es).Perm (saveExtractedStrings.stringInfos env2 es) ∧
    (es.ExtractedStrings.length ≤ 1 →
      saveExtractedStrings.stringInfos env1 es = saveExtractedStrings.stringInfos env2 es) := by
  have hp : (env1.rangeOrder es.ExtractedStrings).Perm (env2.rangeOrder es.ExtractedStrings) :=
    (h1 _).trans (h2 _).symm
  refine ⟨hp.map _, ?_⟩
  intro hlen
  have heq : env1.rangeOrder es.ExtractedStrings = env2.rangeOrder es.ExtractedStrings := by
    have e1 := h1 es.ExtractedStrings
    have e2 := h2 es.ExtractedStrings
    cases hm : es.ExtractedStrings with
    | nil =>
      rw [hm] at e1 e2
      rw [List.perm_nil.1 e1, List.perm_nil.1 e2]
    | cons a l =>
      cases l with
      | nil =>
        rw [hm] at e1 e2
        rw [List.perm_singleton.1 e1, List.perm_singleton.1 e2]
      | cons b l' =>
        rw [hm] at hlen
        simp at hlen
  unfold saveExtractedStrings.stringInfos
  rw [heq]

/-- C5, an instance: after extracting from the file with two literals, the records collected
under one iteration order and under the reverse order are permutations of each other. -/
theorem records_determined_up_to_order_witness :
    twoWorld.env.RangeFaithful ∧ twoWorldReversed.env.RangeFaithful ∧
    (saveExtractedStrings.stringInfos twoWorld.env
      (InspectFile twoWorld.env "/src/p/main.go" (freshRun twoWorld.env plainOptions)).2.es).Perm
    (saveExtractedStrings.stringInfos twoWorldReversed.env
      (InspectFile twoWorld.env "/src/p/main.go" (freshRun twoWorld.env plainOptions)).2.es) :=
  ⟨World.env_rangeFaithful _, World.env_rangeFaithful _,
    (records_determined_up_to_order twoWorld.env twoWorldReversed.env
      (InspectFile twoWorld.env "/src/p/main.go" (freshRun twoWorld.env plainOptions)).2.es
      (World.env_rangeFaithful _) (World.env_rangeFaithful _)).1⟩

/-- C6, refuted: with a config that is not valid JSON, `InspectFile` on the hidden file
`.hidden.go` returns nil, not the error of `json.Unmarshal`; and `InspectDir` on a directory
for which `parser.ParseDir` reports an error returns that error and calls `InspectFile` on no
file, `main.go` included. -/
theorem malformed_config_not_reached :
    hiddenWorld.env.StatIsNotExist plainOptions.ExcludedFilenameFlag = false ∧
    hiddenWorld.env.ReadFile plainOptions.ExcludedFilenameFlag = .ok "config" ∧
    hiddenWorld.env.Unmarshal "config" = .error ⟨"invalid character"⟩ ∧
    (InspectFile hiddenWorld.env "/src/p/.hidden.go"
      (freshRun hiddenWorld.env plainOptions)).1 = .returned none ∧
    malformedWorld.env.Unmarshal "config" = .error ⟨"invalid character"⟩ ∧
    (InspectDir malformedWorld.env "/src/p" false brokenDir
      (freshRun malformedWorld.env plainOptions)).1 =
      .returned (some ⟨"/src/p/other.go:1:1: expected 'package', found 'EOF'"⟩) ∧
    (InspectDir malformedWorld.env "/src/p" false brokenDir
      (freshRun malformedWorld.env plainOptions)).2.trace = [] := by
  decide

/-- C6, an instance: with a config that is not valid JSON, `InspectFile` on `main.go` returns
the error of `json.Unmarshal` and extracts nothing, and `InspectDir` on the directory of
`main.go` and `other.go` returns nil after calling `InspectFile` on both. -/
theorem malformed_config_fails_file_not_dir_witness :
    malformedWorld.env.Unmarshal "config" = .error ⟨"invalid character"⟩ ∧
    (InspectFile malformedWorld.env "/src/p/main.go"
      (freshRun malformedWorld.env plainOptions)).1 =
        .returned (some ⟨"invalid character"⟩) ∧
    (InspectFile malformedWorld.env "/src/p/main.go"
      (freshRun malformedWorld.env plainOptions)).2.es.ExtractedStrings = [] ∧
    (InspectDir malformedWorld.env "/src/p" false plainDir
      (freshRun malformedWorld.env plainOptions)).1 = .returned none ∧
    Event.InspectFile "/src/p/main.go" ∈ (InspectDir malformedWorld.env "/src/p" false plainDir
      (freshRun malformedWorld.env plainOptions)).2.trace ∧
    Event.InspectFile "/src/p/other.go" ∈ (InspectDir malformedWorld.env "/src/p" false plainDir
      (freshRun malformedWorld.env plainOptions)).2.trace :=
  have h := malformed_config_fails_file_not_dir malformedWorld.env "config"
    ⟨"invalid character"⟩ (by decide)
  have h1 := h.1 "/src/p/main.go"
    (freshRun malformedWorld.env plainOptions) { Name := "main.go", IsDir := false } fmtHello
    { Position := fun p =>
        { Filename := "/src/p/main.go", Offset := p, Line := 1, Column := (p : Int) + 1 } }
    (by decide) (by decide) (by decide) (by decide) rfl
  have h2 := h.2 "/src/p" false [("p", { Files := ["/src/p/main.go", "/src/p/other.go"] })] []
    (freshRun malformedWorld.env plainOptions) (by decide) (by decide)
    (fun _ _ _ _ => Option.some_ne_none _)
  ⟨by decide, h1.1, h1.2.1, h2.1,
    h2.2 ("p", { Files := ["/src/p/main.go", "/src/p/other.go"] }) (List.mem_singleton.2 rfl)
      "/src/p/main.go" (by decide) (fun re hre => by cases hre) (by decide),
    h2.2 ("p", { Files := ["/src/p/main.go", "/src/p/other.go"] }) (List.mem_singleton.2 rfl)
      "/src/p/other.go" (by decide) (fun re hre => by cases hre) (by decide)⟩

/-- C7, refuted: with both flags off and the output-directory option set to `out`, the
directory handed to `saveExtractedStrings` for `/src/p/main.go` is `out`, not the directory
`/src/p/` that contains the source file. -/
theorem output_dir_overrides_default :
    (outOptions false false).OutputMatchImportFlag = false ∧
    (outOptions false false).OutputMatchPackageFlag = false ∧
    helloWorld.env.FindFilePath (InspectFile.absFilePath helloWorld.env "/src/p/main.go") =
      .ok "/src/p/" ∧
    (InspectFile helloWorld.env "/src/p/main.go"
      (freshRun helloWorld.env (outOptions false false))).2.trace =
      [Event.InspectFile "/src/p/main.go",
       Event.CreateOutputDirsIfNeeded "out",
       Event.Create "out/main.go.extracted.json",
       Event.Write "out/main.go.extracted.json" "hello",
       Event.SaveStrings
         [("hello", { Value := "hello", Filename := "/src/p/main.go", Offset := 54, Line := 1,
                      Column := 55 })]
         "out" "/src/p/main.go.en.json"] := by
  decide

/-- C7, an instance: with both flags off and no output-directory option, the directory handed
to `saveExtractedStrings` for `/src/p/main.go` is `/src/p/`. -/
theorem default_destination_witness :
    Event.CreateOutputDirsIfNeeded "/src/p/" ∈ (InspectFile helloWorld.env "/src/p/main.go"
      (freshRun helloWorld.env plainOptions)).2.trace ∧
    (((freshRun helloWorld.env plainOptions).es.options.OutputDirFlag = "" ∧
        helloWorld.env.FindFilePath (InspectFile.absFilePath helloWorld.env "/src/p/main.go") =
          .ok "/src/p/") ∨
      ((freshRun helloWorld.env plainOptions).es.options.OutputDirFlag ≠ "" ∧
        "/src/p/" = (freshRun helloWorld.env plainOptions).es.OutputDirname)) :=
  ⟨by decide, default_destination helloWorld.env "/src/p/main.go"
    (freshRun helloWorld.env plainOptions) "/src/p/" (by decide) (by decide) (by decide)
    (by decide)⟩

/-- C8, the defect: where `build.ImportDir` fails on the directory of the file, the
package-match strategy returns the error and `InspectFile` writes nothing, but the import-match
strategy returns no error: `findImportPath` yields `out`, and `InspectFile` returns nil and
writes the artifact. -/
theorem findImportPath_ignores_ImportDir_error :
    (unresolvedWorld.env.ImportDir "/src/p/").2 =
      some ⟨"found packages p (main.go) and q (other.go) in /src/p/"⟩ ∧
    findPackagePath unresolvedWorld.env
      (NewExtractStrings unresolvedWorld.env (outOptions false true)) "/src/p/main.go" =
      ("", some ⟨"found packages p (main.go) and q (other.go) in /src/p/"⟩) ∧
    (InspectFile unresolvedWorld.env "/src/p/main.go"
      (freshRun unresolvedWorld.env (outOptions false true))).2.trace =
      [Event.InspectFile "/src/p/main.go"] ∧
    findImportPath unresolvedWorld.env
      (NewExtractStrings unresolvedWorld.env (outOptions true false)) "/src/p/main.go" =
      ("out", none) ∧
    (InspectFile unresolvedWorld.env "/src/p/main.go"
      (freshRun unresolvedWorld.env (outOptions true false))).1 = .returned none ∧
    Event.Write "out/main.go.extracted.json" "hello" ∈
      (InspectFile unresolvedWorld.env "/src/p/main.go"
        (freshRun unresolvedWorld.env (outOptions true false))).2.trace := by
  decide

/-- C9, refuted: for the source file name `pkg/main.go` the record has the `Filename`
`pkg/main.go`, directory included, and for `x.extracted.json.go` it has the `Filename` `x`;
the base names are `main.go` and `x.extracted.json.go`. -/
theorem record_filename_keeps_directory :
    (saveExtractedStrings.stringInfos relativeWorld.env
      (InspectFile relativeWorld.env "pkg/main.go"
        (freshRun relativeWorld.env plainOptions)).2.es).map (fun i => i.Filename) =
      ["pkg/main.go"] ∧
    (saveExtractedStrings.stringInfos markedWorld.env
      (InspectFile markedWorld.env "x.extracted.json.go"
        (freshRun markedWorld.env plainOptions)).2.es).map (fun i => i.Filename) = ["x"] := by
  decide

/-- C9, an instance: the record of `hello` extracted from `pkg/main.go`. -/
theorem record_filename_is_source_name_witness :
    ({ Value := "hello", Filename := "pkg/main.go", Offset := 54, Line := 1, Column := 55 } :
      StringInfo) ∈ saveExtractedStrings.stringInfos relativeWorld.env
        (InspectFile relativeWorld.env "pkg/main.go"
          (freshRun relativeWorld.env plainOptions)).2.es ∧
    ¬ ".extracted.json".data <:+: "pkg/main.go".data ∧
    ({ Value := "hello", Filename := "pkg/main.go", Offset := 54, Line := 1, Column := 55 } :
      StringInfo).Filename = "pkg/main.go" :=
  ⟨by decide, by decide,
    (record_filename_is_source_name relativeWorld.env "pkg/main.go"
      (freshRun relativeWorld.env plainOptions)
      { Value := "hello", Filename := "pkg/main.go", Offset := 54, Line := 1, Column := 55 }
      (by decide)).2 (by decide)⟩

theorem notWhitespace_eq_false_iff (s : String) :
    extractString.notWhitespace s = false ↔ s = "\t" ∨ s = "\n" ∨ s = " " := by
  rw [← Bool.not_eq_true, notWhitespace_iff]
  by_cases h1 : s = "\t" <;> by_cases h2 : s = "\n" <;> by_cases h3 : s = " " <;> simp [h1, h2, h3]

/-- C10, refuted: the tokens `"\x09"` and `"\u0020"`, whose raw text is no single-character
whitespace form, fail the whitespace test of `extractString`; with no exclusion at all (no
config, no imports, no reserved blank forms) the file that holds them yields no string. -/
theorem escaped_whitespace_rejected :
    extractString.notWhitespace (unquoted escapedWorld.env "\"\\x09\"") = false ∧
    extractString.notWhitespace (unquoted escapedWorld.env "\"\\u0020\"") = false ∧
    (∀ s, filter escapedWorld.env
      (InspectFile.reset (NewExtractStrings escapedWorld.env plainOptions) "/src/p/main.go")
      s = some false) ∧
    (InspectFile escapedWorld.env "/src/p/main.go"
      (freshRun escapedWorld.env plainOptions)).2.es.ExtractedStrings = [] :=
  ⟨by decide, by decide, fun s => by simp [filter, escapedWorld, World.noBlanks, World.env,
    InspectFile.reset, setFilename, setI18nFilename, setPoFilename, GoMap.index, GoMap.get?,
    filter.regexps], by decide⟩

/-- C10, as amended. The whitespace rule of `extractString` is decided on the unquoted value:
a token fails it exactly when its unquoted value is a lone tab, newline or space, whatever its
raw text, and such a token leaves `ExtractedStrings` as it was. -/
theorem whitespace_rule_on_unquoted_value (env : Env) (x : BasicLit) :
    (extractString.notWhitespace (unquoted env x.Value) = false ↔
      unquoted env x.Value = "\t" ∨ unquoted env x.Value = "\n" ∨ unquoted env x.Value = " ") ∧
    (unquoted env x.Value = "\t" ∨ unquoted env x.Value = "\n" ∨ unquoted env x.Value = " " →
      ∀ (fset : FileSet) (es : ExtractStrings),
        extractString.visit env fset es (.BasicLit x) = some es) := by
  refine ⟨notWhitespace_eq_false_iff _, ?_⟩
  intro h fset es
  have hc : candidate env x ≠ true := by
    intro hc
    have := ((candidate_iff env x).1 hc).2.2
    rw [(notWhitespace_eq_false_iff _).2 h] at this
    cases this
  rw [visit_basicLit, if_neg hc]

/-- C10, an instance: the token `"\x09"` unquotes to a tab and is left out. -/
theorem whitespace_rule_on_unquoted_value_witness :
    (unquoted escapedWorld.env (stringLit 21 "\"\\x09\"").Value = "\t" ∨
      unquoted escapedWorld.env (stringLit 21 "\"\\x09\"").Value = "\n" ∨
      unquoted escapedWorld.env (stringLit 21 "\"\\x09\"").Value = " ") ∧
    extractString.visit escapedWorld.env lineOne
      (NewExtractStrings escapedWorld.env plainOptions)
      (.BasicLit (stringLit 21 "\"\\x09\"")) =
      some (NewExtractStrings escapedWorld.env plainOptions) :=
  ⟨by decide, (whitespace_rule_on_unquoted_value escapedWorld.env
    (stringLit 21 "\"\\x09\"")).2 (by decide) lineOne
    (NewExtractStrings escapedWorld.env plainOptions)⟩

end i18n4go
